import Mathlib

/-!
Shallow embedding of the chronofold CRDT (AppAppWorks/chronofold) in Lean 4,
together with proofs settling the frozen claims about its specification.

The embedding follows the Rust sources file by file:
  - offsetmap.rs   : `OffsetMap` (sparse map with default-by-identity-offset)
  - costructures.rs: `Costructures` (all four metadata streams packed into
                     one sorted map keyed by tagged 64-bit integers)
  - index.rs       : offsets `RelativeNextIndex` (+1), `RelativeReference`
                     (-1), `IndexShift`
  - version.rs     : `Version` (vector clock as a list sorted by author)
  - distributed.rs : `Timestamp`, `Op`, `OpPayload`
  - internal.rs    : `findPredecessor`, `applyChange`, `applyLocalChanges`,
                     `findLastDelete`
  - iter.rs        : causal iteration, `iterSubtree`, the visible-element
                     iterator
  - lib.rs         : `Chronofold`, `newCf`, `logIndex`, `timestamp`, `apply`
  - session.rs     : `pushBack`

Machine integers: Rust `usize`/`isize` are modelled as `Nat`/`Int`; the
`as usize` casts in offset arithmetic are modelled exactly by reduction
modulo 2^64 (`asUsize`).  Rust panics (`unreachable!`, `unwrap` on `None`)
are modelled by `Option`/dedicated result constructors as noted at each
definition.
-/

namespace Chronofold

/-- Number of values of the 64-bit `usize` type. -/
def USIZE : Nat := 2 ^ 64

/-- Model of Rust's `as usize` cast applied to an `isize` value: two's
complement reinterpretation, i.e. reduction modulo 2^64. -/
def asUsize (i : Int) : Nat := (i % (USIZE : Int)).toNat

/-- Model of `Offset::add` from offsetmap.rs / index.rs:
`(value.0 as isize + self.0) as usize`. -/
def offAdd (off : Int) (k : Nat) : Nat := asUsize ((k : Int) + off)

theorem asUsize_of_lt {v : Nat} (h : v < USIZE) : asUsize (v : Int) = v := by
  unfold asUsize
  rw [Int.emod_eq_of_lt (by positivity) (by exact_mod_cast h)]
  exact Int.toNat_natCast v

theorem offAdd_one {k : Nat} (h : k + 1 < USIZE) : offAdd 1 k = k + 1 := by
  unfold offAdd
  have : ((k : Int) + 1) = ((k + 1 : Nat) : Int) := by push_cast; ring
  rw [this, asUsize_of_lt h]

theorem offAdd_neg_one {k : Nat} (h : 0 < k) (h2 : k < USIZE) :
    offAdd (-1) k = k - 1 := by
  unfold offAdd
  have : ((k : Int) + (-1)) = ((k - 1 : Nat) : Int) := by
    omega
  rw [this, asUsize_of_lt (by omega)]

/-! ### Sorted association lists, modelling `std::collections::BTreeMap`

A `BTreeMap<usize, V>` is modelled as a list of key-value pairs kept
strictly sorted by key; this representation is canonical, so list equality
coincides with `BTreeMap` equality. -/

/-- Lookup in the association list (`BTreeMap::get`). -/
def mapGet {V : Type} (m : List (Nat × V)) (k : Nat) : Option V :=
  (m.find? (fun p => p.1 = k)).map (·.2)

/-- Insertion keeping the list sorted by key (`BTreeMap::insert`). -/
def mapInsert {V : Type} : List (Nat × V) → Nat → V → List (Nat × V)
  | [], k, v => [(k, v)]
  | (k', v') :: rest, k, v =>
    if k < k' then (k, v) :: (k', v') :: rest
    else if k = k' then (k, v) :: rest
    else (k', v') :: mapInsert rest k v

/-- Removal (`BTreeMap::remove`, ignoring the returned old value). -/
def mapRemove {V : Type} (m : List (Nat × V)) (k : Nat) : List (Nat × V) :=
  m.filter (fun p => p.1 ≠ k)

/-- Strictly-ascending key order; the representation invariant of the model. -/
def mapSorted {V : Type} (m : List (Nat × V)) : Prop :=
  List.Pairwise (fun p q => p.1 < q.1) m

theorem mapGet_nil {V : Type} (k : Nat) : mapGet ([] : List (Nat × V)) k = none := rfl

theorem mapGet_mapInsert_self {V : Type} (m : List (Nat × V)) (k : Nat) (v : V) :
    mapGet (mapInsert m k v) k = some v := by
  induction m with
  | nil => simp [mapInsert, mapGet, List.find?]
  | cons p rest ih =>
    obtain ⟨k', v'⟩ := p
    by_cases h1 : k < k'
    · simp [mapInsert, h1, mapGet, List.find?]
    · by_cases h2 : k = k'
      · simp [mapInsert, h1, h2, mapGet, List.find?]
      · have hne : (decide (k' = k)) = false := by
          simp; omega
        simp only [mapInsert, if_neg h1, if_neg h2]
        simpa [mapGet, List.find?, hne] using ih

theorem mapGet_mapInsert_ne {V : Type} (m : List (Nat × V)) (k k' : Nat) (v : V)
    (h : k' ≠ k) : mapGet (mapInsert m k v) k' = mapGet m k' := by
  induction m with
  | nil =>
    simp [mapInsert, mapGet, List.find?, show (decide (k = k')) = false by simp; omega]
  | cons p rest ih =>
    obtain ⟨k0, v0⟩ := p
    by_cases h1 : k < k0
    · simp [mapInsert, h1, mapGet, List.find?, show (decide (k = k')) = false by simp; omega]
    · by_cases h2 : k = k0
      · subst h2
        simp [mapInsert, h1, mapGet, List.find?,
          show (decide (k = k')) = false by simp; omega]
      · simp only [mapInsert, if_neg h1, if_neg h2]
        by_cases h3 : k0 = k'
        · simp [mapGet, List.find?, h3]
        · have : (decide (k0 = k')) = false := by simp; omega
          simpa [mapGet, List.find?, this] using ih

theorem mapGet_mapRemove_self {V : Type} (m : List (Nat × V)) (k : Nat) :
    mapGet (mapRemove m k) k = none := by
  induction m with
  | nil => rfl
  | cons p rest ih =>
    obtain ⟨k0, v0⟩ := p
    by_cases h : k0 = k
    · subst h
      have hd : (decide (k0 ≠ k0)) = false := by simp
      simp only [mapRemove, List.filter, hd] at ih ⊢
      exact ih
    · have : (decide (k0 = k)) = false := by simp; omega
      simpa [mapRemove, List.filter, mapGet, List.find?, this, h] using ih

theorem mapGet_mapRemove_ne {V : Type} (m : List (Nat × V)) (k k' : Nat)
    (h : k' ≠ k) : mapGet (mapRemove m k) k' = mapGet m k' := by
  induction m with
  | nil => rfl
  | cons p rest ih =>
    obtain ⟨k0, v0⟩ := p
    by_cases h0 : k0 = k
    · subst h0
      have : (decide (k0 = k')) = false := by simp; omega
      simpa [mapRemove, List.filter, mapGet, List.find?, this] using ih
    · have h0' : (decide (k0 = k)) = false := by simp; omega
      by_cases h1 : k0 = k'
      · subst h1
        simp [mapRemove, List.filter, h0', mapGet, List.find?]
      · have h1' : (decide (k0 = k')) = false := by simp; omega
        simpa [mapRemove, List.filter, mapGet, List.find?, h0', h1'] using ih

theorem mem_mapInsert {V : Type} (m : List (Nat × V)) (k : Nat) (v : V)
    (q : Nat × V) (h : q ∈ mapInsert m k v) : q = (k, v) ∨ q ∈ m := by
  induction m with
  | nil => simpa [mapInsert] using h
  | cons p rest ih =>
    obtain ⟨k0, v0⟩ := p
    by_cases h1 : k < k0
    · simp only [mapInsert, if_pos h1] at h
      rcases List.mem_cons.mp h with h | h
      · exact Or.inl h
      · exact Or.inr h
    · by_cases h2 : k = k0
      · simp only [mapInsert, if_neg h1, if_pos h2] at h
        rcases List.mem_cons.mp h with h | h
        · exact Or.inl h
        · exact Or.inr (List.mem_cons_of_mem _ h)
      · simp only [mapInsert, if_neg h1, if_neg h2] at h
        rcases List.mem_cons.mp h with h | h
        · exact Or.inr (h ▸ List.mem_cons_self _ _)
        · rcases ih h with h | h
          · exact Or.inl h
          · exact Or.inr (List.mem_cons_of_mem _ h)

theorem mapInsert_sorted {V : Type} (m : List (Nat × V)) (k : Nat) (v : V)
    (h : mapSorted m) : mapSorted (mapInsert m k v) := by
  induction m with
  | nil => simp [mapInsert, mapSorted]
  | cons p rest ih =>
    obtain ⟨k0, v0⟩ := p
    rw [mapSorted, List.pairwise_cons] at h
    obtain ⟨hhead, htail⟩ := h
    by_cases h1 : k < k0
    · rw [mapSorted, mapInsert, if_pos h1]
      refine List.Pairwise.cons ?_ (List.Pairwise.cons hhead htail)
      intro q hq
      rcases List.mem_cons.mp hq with rfl | hq'
      · exact h1
      · exact lt_trans h1 (hhead q hq')
    · by_cases h2 : k = k0
      · subst h2
        rw [mapSorted, mapInsert, if_neg h1, if_pos rfl]
        exact List.Pairwise.cons hhead htail
      · rw [mapSorted, mapInsert, if_neg h1, if_neg h2]
        refine List.Pairwise.cons ?_ (ih htail)
        intro q hq
        rcases mem_mapInsert rest k v q hq with rfl | hq'
        · omega
        · exact hhead q hq'

/-! ### OffsetMap (offsetmap.rs)

`OffsetMap<K, O>` stores, per key, either an explicit `None` sentinel or an
offset; values equal to `default_offset + key` are never stored.  The default
offset is `+1` for the next-index stream (`RelativeNextIndex`) and `-1` for
the reference stream (`RelativeReference`), per index.rs. -/

/-- The `map: BTreeMap<K, Option<O>>` field of `OffsetMap`. -/
structure OffsetMap where
  map : List (Nat × Option Int)
  deriving DecidableEq, Repr

namespace OffsetMap

/-- The empty map (`OffsetMap::new`). -/
def new : OffsetMap := ⟨[]⟩

/-- `OffsetMap::get`, with `off` the stream's default offset. -/
def get (off : Int) (m : OffsetMap) (k : Nat) : Option Nat :=
  match mapGet m.map k with
  | none => some (offAdd off k)
  | some none => none
  | some (some d) => some (offAdd d k)

/-- `OffsetMap::set`.  `Offset::sub` is modelled by exact `Int` subtraction;
the two agree for all indices below 2^63, which covers every index a log can
reach. -/
def set (off : Int) (m : OffsetMap) (k : Nat) (v : Option Nat) : OffsetMap :=
  match v with
  | some v =>
    if offAdd off k = v then ⟨mapRemove m.map k⟩
    else ⟨mapInsert m.map k (some ((v : Int) - (k : Int)))⟩
  | none => ⟨mapInsert m.map k none⟩

end OffsetMap

/-! ### Range-encoded streams (the author and index-shift parts of
costructures.rs)

`get` performs the range lookup `map.range(lo..=key).next_back()` restricted
to one stream: the value stored at the largest key not exceeding the query.
`set` elides writes that would not change the value in effect
(`costructures_set_btree_range`). -/

structure RangeMap where
  map : List (Nat × Nat)
  deriving DecidableEq, Repr

namespace RangeMap

def new : RangeMap := ⟨[]⟩

/-- Range lookup: the value at the largest stored key `≤ k` (the stored list
is kept sorted by key, so this is the last matching entry). -/
def get (m : RangeMap) (k : Nat) : Option Nat :=
  ((m.map.filter (fun p => p.1 ≤ k)).getLast?).map (·.2)

/-- `costructures_set_btree_range`: insert only if the value in effect at `k`
differs. -/
def set (m : RangeMap) (k : Nat) (v : Nat) : RangeMap :=
  if m.get k = some v then m else ⟨mapInsert m.map k v⟩

end RangeMap

/-! ### The packed costructures map (costructures.rs)

All four streams live in a single sorted map from tagged 64-bit keys to
`usize` values.  Tags (two most significant bits): `00` next-index offset,
`01` reference offset, `10` author, `11` index shift. -/

/-- `Costructures` with its single `BTreeMap<usize, usize>`. -/
structure Costructures where
  map : List (Nat × Nat)
  deriving DecidableEq, Repr

namespace Costructures

def new : Costructures := ⟨[]⟩

/-- `RNI_FLAG << RNI_SHIFT = 0`. -/
def RNI_TAG : Nat := 0
/-- `RR_FLAG << RR_SHIFT = 1 << 62`. -/
def RR_TAG : Nat := 1 * 2 ^ 62
/-- `A_FLAG << A_SHIFT = 1 << 63`. -/
def A_TAG : Nat := 1 * 2 ^ 63
/-- `II_FLAG << II_SHIFT = 3 << 62`. -/
def II_TAG : Nat := 3 * 2 ^ 62

/-- `costructures_get_btree_exact`: exact lookup of the tagged key.
`key.0 | flag << shift` equals `key.0 + tag` for indices below 2^62. -/
def getExact (cs : Costructures) (tag : Nat) (k : Nat) : Option Nat :=
  mapGet cs.map (k ||| tag)

/-- `costructures_get_btree_range`: the value at the largest key in
`tag ..= (k | tag)`. -/
def getRange (cs : Costructures) (tag : Nat) (k : Nat) : Option Nat :=
  ((cs.map.filter (fun p => tag ≤ p.1 ∧ p.1 ≤ (k ||| tag))).getLast?).map (·.2)

/-- `Costructures::process_relative`: absent key means the default offset
applies; a stored `0` encodes the explicit `None` sentinel; any other stored
value is reinterpreted as an `isize` offset and added to the key. -/
def processRelative (off : Int) (k : Nat) (value : Option Nat) : Option Nat :=
  match value with
  | none => some (offAdd off k)
  | some v =>
    if v = 0 then none
    else some (offAdd (Int.subNatNat v (if 2 ^ 63 ≤ v then USIZE else 0)) k)

/-- `Costructures::get_next_index`. -/
def getNextIndex (cs : Costructures) (k : Nat) : Option Nat :=
  processRelative 1 k (cs.getExact RNI_TAG k)

/-- `Costructures::get_reference`. -/
def getReference (cs : Costructures) (k : Nat) : Option Nat :=
  processRelative (-1) k (cs.getExact RR_TAG k)

/-- `costructures_set_btree_exact`: remove when the value equals the default,
store `0` for `None`, and the two's-complement `isize` offset otherwise. -/
def setExact (cs : Costructures) (off : Int) (tag : Nat) (k : Nat)
    (v : Option Nat) : Costructures :=
  match v with
  | some v =>
    if offAdd off k = v then ⟨mapRemove cs.map (k ||| tag)⟩
    else ⟨mapInsert cs.map (k ||| tag) (asUsize ((v : Int) - (k : Int)))⟩
  | none => ⟨mapInsert cs.map (k ||| tag) 0⟩

/-- `Costructures::set_next_index`. -/
def setNextIndex (cs : Costructures) (k : Nat) (v : Option Nat) : Costructures :=
  cs.setExact 1 RNI_TAG k v

/-- `Costructures::set_reference`. -/
def setReference (cs : Costructures) (k : Nat) (v : Option Nat) : Costructures :=
  cs.setExact (-1) RR_TAG k v

/-- `costructures_set_btree_range` specialised to a tagged stream. -/
def setRange (cs : Costructures) (tag : Nat) (k : Nat) (v : Nat) : Costructures :=
  if cs.getRange tag k = some v then cs else ⟨mapInsert cs.map (k ||| tag) v⟩

/-- `Costructures::get_author` (sans the `A::from` conversion; authors are
already naturals here). -/
def getAuthor (cs : Costructures) (k : Nat) : Option Nat :=
  cs.getRange A_TAG k

/-- `Costructures::set_author`. -/
def setAuthor (cs : Costructures) (k : Nat) (v : Nat) : Costructures :=
  cs.setRange A_TAG k v

/-- `Costructures::get_index_shift`. -/
def getIndexShift (cs : Costructures) (k : Nat) : Option Nat :=
  cs.getRange II_TAG k

/-- `Costructures::set_index_shift`. -/
def setIndexShift (cs : Costructures) (k : Nat) (v : Nat) : Costructures :=
  cs.setRange II_TAG k v

end Costructures

/-! ### Timestamps, changes, ops (distributed.rs, the change log) -/

/-- `Timestamp<A>`: an author index paired with an author.  Authors are
modelled as naturals (the `Author` trait demands a total order isomorphic to
`usize`). -/
structure Timestamp where
  idx : Nat
  author : Nat
  deriving DecidableEq, Repr

/-- The derived lexicographic strict order on `(idx, author)`. -/
def Timestamp.lt (a b : Timestamp) : Prop :=
  a.idx < b.idx ∨ (a.idx = b.idx ∧ a.author < b.author)

instance : DecidablePred (fun p : Timestamp × Timestamp => p.1.lt p.2) :=
  fun p => by unfold Timestamp.lt; infer_instance

instance (a b : Timestamp) : Decidable (a.lt b) := by
  unfold Timestamp.lt; infer_instance

/-- `Change<T>`, the log entry payload.

Modelled from the spec: the file change.rs is not part of the sources
provided, but the spec (section 3) and every use in the provided files fix it
as the tagged variant `Root | Insert(T) | Delete`. -/
inductive Change (T : Type) where
  | root : Change T
  | insert (v : T) : Change T
  | delete : Change T
  deriving DecidableEq, Repr

/-- `OpPayload<A, T>` from distributed.rs. -/
inductive OpPayload (T : Type) where
  | root : OpPayload T
  | insert (reference : Option Timestamp) (v : T) : OpPayload T
  | delete (reference : Timestamp) : OpPayload T
  deriving DecidableEq, Repr

/-- `Op<A, T>` from distributed.rs. -/
structure Op (T : Type) where
  id : Timestamp
  payload : OpPayload T
  deriving DecidableEq, Repr

/-- `Op::insert`. -/
def Op.insert {T : Type} (id : Timestamp) (reference : Option Timestamp) (v : T) : Op T :=
  ⟨id, OpPayload.insert reference v⟩

/-- `Op::delete`. -/
def Op.delete {T : Type} (id : Timestamp) (reference : Timestamp) : Op T :=
  ⟨id, OpPayload.delete reference⟩

/-- `Op::root`. -/
def Op.rootOp {T : Type} (id : Timestamp) : Op T :=
  ⟨id, OpPayload.root⟩

/-- `ChronofoldError<A, V>`.

Modelled from the spec: error.rs is not among the provided sources; the spec
(section 7) and the error tests fix the three variants, each carrying the
rejected op. -/
inductive ChronofoldError (T : Type) where
  | existingTimestamp (op : Op T) : ChronofoldError T
  | futureTimestamp (op : Op T) : ChronofoldError T
  | unknownReference (op : Op T) : ChronofoldError T
  deriving DecidableEq, Repr

/-! ### Version (version.rs) -/

/-- `Version<A>`: timestamps sorted strictly by author (maintained by the
binary-search insertion in `Version::inc`). -/
structure Version where
  logIndices : List Timestamp
  deriving DecidableEq, Repr

namespace Version

def new : Version := ⟨[]⟩

/-- The sorted-insertion/max loop realising `Version::inc`'s binary search:
on an author hit, `take_max`; on a miss, insert at the sorted position. -/
def incAux : List Timestamp → Timestamp → List Timestamp
  | [], t => [t]
  | e :: rest, t =>
    if e.author < t.author then e :: incAux rest t
    else if e.author = t.author then ⟨max e.idx t.idx, e.author⟩ :: rest
    else t :: e :: rest

/-- `Version::inc`. -/
def inc (v : Version) (t : Timestamp) : Version := ⟨incAux v.logIndices t⟩

/-- `Version::get`. -/
def get (v : Version) (author : Nat) : Option Nat :=
  (v.logIndices.find? (fun t => t.author = author)).map (·.idx)

end Version

/-! ### The chronofold (lib.rs)

The struct in lib.rs packs the four secondary streams into one
`Costructures` map and accesses them exclusively through
`get_next_index`/`set_next_index` etc.; internal.rs and iter.rs address the
same four streams by name (`next_indices`, `references`, `authors`,
`index_shifts`).  The embedding carries the four streams as separate fields
with exactly the per-stream semantics of offsetmap.rs (next index, default
offset +1; reference, default offset -1) and of the range-encoded
`costructures` lookups (author, index shift); the packed `Costructures`
realisation of those stream contracts is treated separately below. -/

structure Cfold (T : Type) where
  log : List (Change T)
  root : Nat
  version : Version
  nextIndices : OffsetMap
  references : OffsetMap
  authors : RangeMap
  indexShifts : RangeMap
  deriving DecidableEq, Repr

namespace Cfold

variable {T : Type}

/-- `Chronofold::get` (lib.rs): `self.log.get(index.0)`. -/
def get (cf : Cfold T) (i : Nat) : Option (Change T) := cf.log.get? i

/-- `self.next_indices.get(&idx)`, also `index_after` from index.rs. -/
def getNextIndex (cf : Cfold T) (i : Nat) : Option Nat :=
  OffsetMap.get 1 cf.nextIndices i

/-- `self.references.get(&idx)`. -/
def getReference (cf : Cfold T) (i : Nat) : Option Nat :=
  OffsetMap.get (-1) cf.references i

/-- `matches!(c, Change::Delete)` for the entry at `i`.  The Rust iterators
index `self.log[...]` directly and would panic out of bounds; an absent
entry is modelled as not-a-delete (reachable chains stay in bounds). -/
def isDeleteAt (cf : Cfold T) (i : Nat) : Bool :=
  match cf.log.get? i with
  | some Change.delete => true
  | _ => false

/-- `Chronofold::timestamp` (lib.rs): requires both range streams to cover
`i`. -/
def timestamp (cf : Cfold T) (i : Nat) : Option Timestamp :=
  match RangeMap.get cf.indexShifts i, RangeMap.get cf.authors i with
  | some shift, some a => some ⟨i - shift, a⟩
  | _, _ => none

/-- `Chronofold::log_index` (lib.rs): scan positions `timestamp.idx ..
log.len()` and return the first whose computed timestamp matches. -/
def logIndex (cf : Cfold T) (t : Timestamp) : Option Nat :=
  ((List.range cf.log.length).drop t.idx).find? (fun i => timestamp cf i = some t)

/-- `Chronofold::new` (lib.rs). -/
def newCf (T : Type) (author : Nat) : Cfold T :=
  { log := [Change.root]
    root := 0
    version := Version.new.inc ⟨0, author⟩
    nextIndices := OffsetMap.set 1 OffsetMap.new 0 none
    references := OffsetMap.set (-1) OffsetMap.new 0 none
    authors := RangeMap.new.set 0 author
    indexShifts := RangeMap.new.set 0 0 }

/-! #### Causal iteration (iter.rs)

`CausalIter` follows next pointers; the Rust iterator is lazy and
unbounded, here it is reified as a list computed with fuel
`log.len() + 1`, which exceeds the chain length on every state whose chain
terminates (all reachable ones). -/

/-- Follow a next-pointer function from a start, with fuel. -/
def chainF (g : Nat → Option Nat) : Nat → Option Nat → List Nat
  | 0, _ => []
  | _ + 1, none => []
  | fuel + 1, some i => i :: chainF g fuel (g i)

/-- `iter_log_indices_causal_range(start..)`: begin at `start` inclusive,
skipping it if its change is a `Root`. -/
def causalFromIncluded (cf : Cfold T) (start : Nat) : List Nat :=
  let cur := match cf.log.get? start with
    | some Change.root => getNextIndex cf start
    | _ => some start
  chainF (getNextIndex cf) (cf.log.length + 1) cur

/-- `iter_log_indices_causal_range(..)`: begin at the entry after the root,
skipping it if it is itself a `Root`. -/
def causalUnbounded (cf : Cfold T) : List Nat :=
  let cur := match getNextIndex cf cf.root with
    | some i =>
      match cf.log.get? i with
      | some Change.root => getNextIndex cf i
      | _ => some i
    | none => none
  chainF (getNextIndex cf) (cf.log.length + 1) cur

/-- `iter_subtree` (iter.rs): keep the walk's entries whose reference is the
subtree root or already collected; the accumulated list doubles as the
`HashSet` (an index is inserted exactly when it is emitted). -/
def iterSubtree (cf : Cfold T) (r : Nat) : List Nat :=
  (causalFromIncluded cf r).foldl
    (fun acc idx =>
      if idx = r then acc ++ [idx]
      else
        match getReference cf idx with
        | some p => if p ∈ acc then acc ++ [idx] else acc
        | none => acc)
    []

/-! #### Predecessor search and the apply engine (internal.rs) -/

/-- The filter `self.timestamp(*i).unwrap() > id`.  The `unwrap` cannot fire
on reachable states (both range streams cover index 0 from construction on);
an absent timestamp is modelled as not-greater. -/
def tsGtAt (cf : Cfold T) (i : Nat) (id : Timestamp) : Bool :=
  match timestamp cf i with
  | some t => decide (id.lt t)
  | none => false

/-- `find_predecessor` (internal.rs).  Result `none` models the
`unreachable!` panics (a `Root` carrying a reference; a non-root without
one); `some p` is the returned predecessor. -/
def findPredecessor (cf : Cfold T) (id : Timestamp) (reference : Option Nat)
    (change : Change T) : Option (Option Nat) :=
  match reference, change with
  | _, Change.delete => some reference
  | none, Change.root => some none
  | some _, Change.root => none
  | some r, Change.insert _ =>
    some
      (match ((causalFromIncluded cf r).filter (fun i =>
          getReference cf i = some r && (isDeleteAt cf i || tsGtAt cf i id))).getLast? with
        | some idx => (iterSubtree cf idx).getLast?
        | none => some r)
  | none, Change.insert _ => none

/-- `apply_change` (internal.rs).  Result `none` propagates a
`find_predecessor` panic.  `IndexShift(new_index.0 - (id.idx).0)` is usize
subtraction, guarded by `apply`'s future-timestamp check; `Nat` subtraction
models it on all guarded calls. -/
def applyChange (cf : Cfold T) (id : Timestamp) (reference : Option Nat)
    (change : Change T) : Option (Cfold T × Nat) :=
  (findPredecessor cf id reference change).map (fun predecessor =>
    let newIndex := cf.log.length
    let pr : Option Nat × OffsetMap :=
      match predecessor with
      | some idx =>
        (OffsetMap.get 1 cf.nextIndices idx,
         OffsetMap.set 1 cf.nextIndices idx (some newIndex))
      | none => (none, cf.nextIndices)
    ({ log := cf.log ++ [change]
       root := cf.root
       version := cf.version.inc id
       nextIndices := OffsetMap.set 1 pr.2 newIndex pr.1
       authors := cf.authors.set newIndex id.author
       indexShifts := cf.indexShifts.set newIndex (newIndex - id.idx)
       references := OffsetMap.set (-1) cf.references newIndex reference },
     newIndex))

/-- `find_last_delete` (internal.rs): last `Delete` strictly after
`reference` in causal order whose reference is `reference`. -/
def findLastDelete (cf : Cfold T) (reference : Nat) : Option Nat :=
  (((causalFromIncluded cf reference).drop 1).filter (fun i =>
    isDeleteAt cf i && getReference cf i = some reference)).getLast?

/-- `apply_local_changes` (internal.rs): batched consecutive appends by one
author.  Only the first and last entries receive explicit next-index
writes; intermediates rely on the default offsets. -/
def applyLocalChanges (cf : Cfold T) (author : Nat) (reference : Nat)
    (changes : List (Change T)) : Cfold T × Option Nat :=
  match changes with
  | [] => (cf, none)
  | firstChange :: rest =>
    let predecessor := (findLastDelete cf reference).getD reference
    let newIndex := cf.log.length
    let lastNextIndex := OffsetMap.get 1 cf.nextIndices predecessor
    let cf1 : Cfold T :=
      { cf with
        nextIndices := OffsetMap.set 1 cf.nextIndices predecessor (some newIndex)
        log := cf.log ++ [firstChange]
        authors := cf.authors.set newIndex author
        indexShifts := cf.indexShifts.set newIndex 0
        references := OffsetMap.set (-1) cf.references newIndex (some predecessor) }
    let cf2 : Cfold T := { cf1 with log := cf1.log ++ rest }
    let lastIdx := newIndex + rest.length
    ({ cf2 with
       nextIndices := OffsetMap.set 1 cf2.nextIndices lastIdx lastNextIndex
       version := cf2.version.inc ⟨lastIdx, author⟩ },
     some lastIdx)

/-! #### apply (lib.rs) -/

/-- Outcome of `Chronofold::apply` on a value model: the mutated state on
`Ok(())`, the error on `Err`, or a panic (reached only via the
`unreachable!` arms of `find_predecessor`). -/
inductive ApplyResult (T : Type) where
  | ok (cf : Cfold T) : ApplyResult T
  | error (e : ChronofoldError T) : ApplyResult T
  | panic : ApplyResult T
  deriving DecidableEq, Repr

/-- Lift an `apply_change` outcome (which returns the new index, discarded
by `apply`). -/
def liftAC {T : Type} (r : Option (Cfold T × Nat)) : ApplyResult T :=
  match r with
  | none => ApplyResult.panic
  | some (cf, _) => ApplyResult.ok cf

/-- `Chronofold::apply` (lib.rs).  `into_local_value` is the identity for a
value op model (`V = T`). -/
def apply (cf : Cfold T) (op : Op T) : ApplyResult T :=
  if (logIndex cf op.id).isSome then ApplyResult.error (ChronofoldError.existingTimestamp op)
  else if cf.log.length < op.id.idx then ApplyResult.error (ChronofoldError.futureTimestamp op)
  else
    match op.payload with
    | OpPayload.root => liftAC (applyChange cf op.id none Change.root)
    | OpPayload.insert (some t) v =>
      match logIndex cf t with
      | some reference => liftAC (applyChange cf op.id (some reference) (Change.insert v))
      | none => ApplyResult.error (ChronofoldError.unknownReference (Op.insert op.id (some t) v))
    | OpPayload.insert none v => liftAC (applyChange cf op.id none (Change.insert v))
    | OpPayload.delete t =>
      match logIndex cf t with
      | some reference => liftAC (applyChange cf op.id (some reference) Change.delete)
      | none => ApplyResult.error (ChronofoldError.unknownReference op)

/-! #### The element iterator (iter.rs `Iter`) -/

/-- The `skip_while(Delete)` step of `Iter::next`: count of skipped
deletes, the first non-delete reached (the iterator's yielded item), and
the items remaining after it. -/
def skipDeletes (cf : Cfold T) : List Nat → Nat × Option Nat × List Nat
  | [] => (0, none, [])
  | i :: rest =>
    if isDeleteAt cf i then
      let p := skipDeletes cf rest
      (p.1 + 1, p.2.1, p.2.2)
    else (0, some i, rest)

theorem skipDeletes_length (cf : Cfold T) (l : List Nat) :
    (skipDeletes cf l).2.2.length +
        (match (skipDeletes cf l).2.1 with | some _ => 1 | none => 0) ≤
      l.length := by
  induction l with
  | nil => simp [skipDeletes]
  | cons i rest ih =>
    by_cases h : isDeleteAt cf i
    · simp only [skipDeletes, if_pos h, List.length_cons]
      omega
    · simp [skipDeletes, if_neg h]

/-- The loop body of `Iter::next`, driven over the reified causal index
list.  `none` models the `unreachable!` panic hit when the current item is
not an `Insert` while no deletes follow it.  The recursion is fuelled so
that it reduces by computation; each step strictly shrinks
`l.length + (1 if a current item exists)`, so any fuel above that measure
is never exhausted (`iterAux_fuel_le` below). -/
def iterAux (cf : Cfold T) : Nat → Option Nat → List Nat → Option (List (T × Nat))
  | 0, _, _ => none
  | _ + 1, none, _ => some []
  | fuel + 1, some c, l =>
    let s := skipDeletes cf l
    if s.1 = 0 then
      match cf.log.get? c with
      | some (Change.insert v) => (iterAux cf fuel s.2.1 s.2.2).map (fun tl => (v, c) :: tl)
      | _ => none
    else iterAux cf fuel s.2.1 s.2.2

theorem iterAux_fuel_le (cf : Cfold T) (n m : Nat) (c : Option Nat) (l : List Nat)
    (h : l.length + (match c with | some _ => 1 | none => 0) < n) (hnm : n ≤ m) :
    iterAux cf m c l = iterAux cf n c l := by
  induction n generalizing c l m with
  | zero => omega
  | succ n ih =>
    obtain ⟨m', rfl⟩ : ∃ m', m = m' + 1 := ⟨m - 1, by omega⟩
    cases c with
    | none => rfl
    | some i =>
      have hs := skipDeletes_length cf l
      have h1 : l.length + 1 < n + 1 := by
        simpa using h
      simp only [iterAux]
      have hmeas : (skipDeletes cf l).2.2.length +
          (match (skipDeletes cf l).2.1 with | some _ => 1 | none => 0) < n := by
        omega
      have hrec : iterAux cf m' (skipDeletes cf l).2.1 (skipDeletes cf l).2.2 =
          iterAux cf n (skipDeletes cf l).2.1 (skipDeletes cf l).2.2 :=
        ih _ _ _ hmeas (by omega)
      rw [hrec]

/-- `Chronofold::iter` (iter.rs `iter`/`iter_range(..)` composed with the
element iterator): visible elements with their log indices, in causal
order; `none` models the iterator panic. -/
def iterVisible (cf : Cfold T) : Option (List (T × Nat)) :=
  let l := causalUnbounded cf
  iterAux cf (l.length + 1) l.head? l.tail

/-! #### Session::push_back (session.rs) -/

/-- `Session::push_back`: insert after the last visible element, or after
the root when no visible element is left.  `none` models a panic (of the
iterator, or of the `unwrap` in `Session::apply_change`). -/
def pushBack (cf : Cfold T) (author : Nat) (v : T) : Option (Cfold T × Nat) :=
  (iterVisible cf).bind (fun elems =>
    let index := (elems.getLast?).elim cf.root (fun p => p.2)
    let res := applyLocalChanges cf author index [Change.insert v]
    res.2.map (fun i => (res.1, i)))

end Cfold

open Cfold (ApplyResult liftAC)

/-! ### Claim C8: the offset-encoded stream contracts -/

theorem asUsize_congr {i j : Int} (h : i % (USIZE : Int) = j % (USIZE : Int)) :
    asUsize i = asUsize j := by
  unfold asUsize
  rw [h]

theorem mapRemove_eq_of_not_mem {V : Type} (m : List (Nat × V)) (k : Nat)
    (h : mapGet m k = none) : mapRemove m k = m := by
  induction m with
  | nil => rfl
  | cons p rest ih =>
    obtain ⟨k0, v0⟩ := p
    by_cases h0 : k0 = k
    · subst h0
      simp [mapGet, List.find?] at h
    · have h0' : (decide (k0 = k)) = false := by simp; omega
      have h0t : (decide (k0 ≠ k)) = true := by simp; omega
      have hrest : mapGet rest k = none := by
        simpa [mapGet, List.find?, h0'] using h
      simp only [mapRemove, List.filter, h0t]
      rw [show List.filter (fun p => decide (p.1 ≠ k)) rest = mapRemove rest k from rfl,
        ih hrest]

theorem offsetMap_get_set_self (off : Int) (m : OffsetMap) (k : Nat) (v : Nat)
    (hv : v < USIZE) :
    OffsetMap.get off (OffsetMap.set off m k (some v)) k = some v := by
  by_cases hdef : offAdd off k = v
  · simp only [OffsetMap.set, if_pos hdef, OffsetMap.get, mapGet_mapRemove_self]
    rw [hdef]
  · simp only [OffsetMap.set, if_neg hdef, OffsetMap.get, mapGet_mapInsert_self]
    congr 1
    unfold offAdd
    rw [show (k : Int) + ((v : Int) - (k : Int)) = (v : Int) by ring]
    exact asUsize_of_lt hv

/-- The two's-complement reinterpretation in `process_relative` composed
with `Offset::add` recovers the value stored by `costructures_set_btree_exact`. -/
theorem packed_roundtrip (off : Int) (tag : Nat) (cs : Costructures) (k v : Nat)
    (hv : v < USIZE) (hk : k < USIZE) (hvk : v ≠ k) :
    Costructures.processRelative off k
        (mapGet (Costructures.setExact cs off tag k (some v)).map (k ||| tag)) =
      some v := by
  by_cases hdef : offAdd off k = v
  · simp only [Costructures.setExact, if_pos hdef, mapGet_mapRemove_self,
      Costructures.processRelative]
    rw [hdef]
  · simp only [Costructures.setExact, if_neg hdef, mapGet_mapInsert_self,
      Costructures.processRelative]
    have hne : asUsize ((v : Int) - (k : Int)) ≠ 0 := by
      unfold asUsize USIZE at *
      push_cast
      omega
    rw [if_neg hne]
    congr 1
    unfold offAdd
    rw [Int.subNatNat_eq_coe]
    split_ifs with h
    all_goals
      unfold asUsize USIZE at *
      push_cast
      omega

/-- Counterexample to claim C8 as stated: in the packed form, setting a
next-index key to its own value stores offset `0`, which `get` decodes as
the explicit-`None` sentinel, so `get` does not return the value just set. -/
theorem C8_counterexample :
    Costructures.getNextIndex (Costructures.setNextIndex Costructures.new 0 (some 0)) 0 =
        none ∧
      (some 0 : Option Nat) ≠ none := by
  constructor
  · rfl
  · simp

/-- Claim C8, amended: the contracts hold as stated for the plain
`OffsetMap` and for absent keys, explicit `None`, and default-elision in the
packed form; but in the packed form `get(k)` after `set(k, Some(v))` returns
`v` only for `v ≠ k` — `v = k` stores offset `0`, which decodes as `None`.
(`v` and `k` range over `usize` values.) -/
theorem C8_offset_stream_contracts (off : Int) (m : OffsetMap) (cs : Costructures)
    (k v : Nat) (hv : v < USIZE) (hk : k < USIZE) :
    (mapGet m.map k = none → OffsetMap.get off m k = some (offAdd off k)) ∧
      OffsetMap.get off (OffsetMap.set off m k (some v)) k = some v ∧
      OffsetMap.get off (OffsetMap.set off m k none) k = none ∧
      (OffsetMap.set off m k (some (offAdd off k))).map = mapRemove m.map k ∧
      (mapGet cs.map (k ||| Costructures.RNI_TAG) = none →
        cs.getNextIndex k = some (offAdd 1 k)) ∧
      (mapGet cs.map (k ||| Costructures.RR_TAG) = none →
        cs.getReference k = some (offAdd (-1) k)) ∧
      (v ≠ k → (cs.setNextIndex k (some v)).getNextIndex k = some v) ∧
      (cs.setNextIndex k none).getNextIndex k = none ∧
      (v ≠ k → (cs.setReference k (some v)).getReference k = some v) ∧
      (cs.setReference k none).getReference k = none ∧
      (cs.setNextIndex k (some (offAdd 1 k))).map =
        mapRemove cs.map (k ||| Costructures.RNI_TAG) ∧
      (cs.setReference k (some (offAdd (-1) k))).map =
        mapRemove cs.map (k ||| Costructures.RR_TAG) := by
  refine ⟨?_, ?_, ?_, ?_, ?_, ?_, ?_, ?_, ?_, ?_, ?_, ?_⟩
  · intro h
    simp [OffsetMap.get, h]
  · exact offsetMap_get_set_self off m k v hv
  · simp [OffsetMap.set, OffsetMap.get, mapGet_mapInsert_self]
  · simp [OffsetMap.set]
  · intro h
    simp [Costructures.getNextIndex, Costructures.getExact, h,
      Costructures.processRelative]
  · intro h
    simp [Costructures.getReference, Costructures.getExact, h,
      Costructures.processRelative]
  · intro hvk
    exact packed_roundtrip 1 Costructures.RNI_TAG cs k v hv hk hvk
  · simp [Costructures.setNextIndex, Costructures.setExact, Costructures.getNextIndex,
      Costructures.getExact, mapGet_mapInsert_self, Costructures.processRelative]
  · intro hvk
    exact packed_roundtrip (-1) Costructures.RR_TAG cs k v hv hk hvk
  · simp [Costructures.setReference, Costructures.setExact, Costructures.getReference,
      Costructures.getExact, mapGet_mapInsert_self, Costructures.processRelative]
  · simp [Costructures.setNextIndex, Costructures.setExact]
  · simp [Costructures.setReference, Costructures.setExact]

/-- Witness for the amended C8 contracts at concrete inputs. -/
theorem C8_offset_stream_contracts_witness :
    OffsetMap.get 1 (OffsetMap.set 1 OffsetMap.new 3 (some 7)) 3 = some 7 ∧
      (Costructures.setReference Costructures.new 5 (some 3)).getReference 5 = some 3 := by
  have h := C8_offset_stream_contracts 1 OffsetMap.new Costructures.new 3 7
    (by norm_num [USIZE]) (by norm_num [USIZE])
  have h2 := C8_offset_stream_contracts (-1) OffsetMap.new Costructures.new 5 3
    (by norm_num [USIZE]) (by norm_num [USIZE])
  exact ⟨h.2.1, h2.2.2.2.2.2.2.2.2.1 (by norm_num)⟩

/-! ### Claims C4 and C5: the apply engine's failure semantics -/

/-- `OpPayload::reference` (distributed.rs). -/
def OpPayload.reference {T : Type} : OpPayload T → Option Timestamp
  | OpPayload.root => none
  | OpPayload.insert r _ => r
  | OpPayload.delete r => some r

/-- Counterexample to claim C4 as stated: on a fresh chronofold, an op whose
author index exceeds the log length and whose reference is also unknown is
rejected with `FutureTimestamp`, although the claim's biconditional demands
`UnknownReference` exactly when the referenced timestamp has no log entry. -/
theorem C4_counterexample :
    Cfold.apply (Cfold.newCf Nat 0) (Op.insert ⟨9, 1⟩ (some ⟨42, 1⟩) 0) =
        ApplyResult.error
          (ChronofoldError.futureTimestamp (Op.insert ⟨9, 1⟩ (some ⟨42, 1⟩) 0)) ∧
      Cfold.logIndex (Cfold.newCf Nat 0) ⟨42, 1⟩ = none ∧
      ChronofoldError.futureTimestamp (Op.insert ⟨9, 1⟩ (some ⟨42, 1⟩) (0 : Nat)) ≠
        ChronofoldError.unknownReference (Op.insert ⟨9, 1⟩ (some ⟨42, 1⟩) 0) := by
  refine ⟨by decide, by decide, by decide⟩


/-- An `apply_change` call whose predecessor search returns (no panic)
appends exactly its change and bumps the version with its id. -/
theorem applyChange_ok_shape {T : Type} (cf : Cfold T) (id : Timestamp)
    (ref : Option Nat) (ch : Change T) (p : Option Nat)
    (h : Cfold.findPredecessor cf id ref ch = some p) :
    ∃ cf2 n, Cfold.applyChange cf id ref ch = some (cf2, n) ∧
      cf2.log = cf.log ++ [ch] ∧ cf2.version = cf.version.inc id := by
  rw [Cfold.applyChange, h]
  exact ⟨_, _, rfl, rfl, rfl⟩

/-- Claim C4, amended: `apply` either appends exactly one log entry and
increments the version with the op's id, or rejects the op (with no state
change: the code reaches `apply_change`, the only mutating call, solely on
the success path), or panics.  The error conditions are checked in priority
order: `ExistingTimestamp` when `log_index` locates the op's id; otherwise
`FutureTimestamp` when the op's author index exceeds the log length;
otherwise `UnknownReference` when the payload carries a reference timestamp
that `log_index` cannot resolve.  The panic (an `unreachable!` in
`find_predecessor`) occurs exactly for an `Insert` without reference that
passes the id checks. -/
theorem C4_apply_failure_semantics {T : Type} (cf : Cfold T) (op : Op T) :
    (Cfold.apply cf op = ApplyResult.error (ChronofoldError.existingTimestamp op) ↔
        (Cfold.logIndex cf op.id).isSome) ∧
      (Cfold.apply cf op = ApplyResult.error (ChronofoldError.futureTimestamp op) ↔
        ¬(Cfold.logIndex cf op.id).isSome ∧ cf.log.length < op.id.idx) ∧
      (Cfold.apply cf op = ApplyResult.error (ChronofoldError.unknownReference op) ↔
        ¬(Cfold.logIndex cf op.id).isSome ∧ ¬cf.log.length < op.id.idx ∧
          ∃ t, op.payload.reference = some t ∧ Cfold.logIndex cf t = none) ∧
      (Cfold.apply cf op = ApplyResult.panic ↔
        ¬(Cfold.logIndex cf op.id).isSome ∧ ¬cf.log.length < op.id.idx ∧
          ∃ v, op.payload = OpPayload.insert none v) ∧
      (∀ cf', Cfold.apply cf op = ApplyResult.ok cf' →
        (∃ ch, cf'.log = cf.log ++ [ch]) ∧ cf'.version = cf.version.inc op.id) := by
  by_cases hex : (Cfold.logIndex cf op.id).isSome
  · have ha : Cfold.apply cf op = ApplyResult.error (ChronofoldError.existingTimestamp op) := by
      simp [Cfold.apply, hex]
    rw [ha]
    refine ⟨by simp [hex], by simp [hex], by simp [hex], by simp [hex], by simp⟩
  · by_cases hfu : cf.log.length < op.id.idx
    · have ha : Cfold.apply cf op = ApplyResult.error (ChronofoldError.futureTimestamp op) := by
        simp [Cfold.apply, hex, hfu]
      rw [ha]
      refine ⟨by simp [hex], by simp [hex, hfu], by simp [hex, hfu], ?_, by simp⟩
      constructor
      · intro h
        exact absurd h (by simp)
      · rintro ⟨h1, h2, h3⟩
        exact absurd hfu h2
    · obtain ⟨id, payload⟩ := op
      cases payload with
      | root =>
        obtain ⟨p, hp⟩ : ∃ p, Cfold.findPredecessor cf id none (Change.root (T := T)) = some p :=
          ⟨_, rfl⟩
        obtain ⟨cf2, n, hac, hlog, hver⟩ := applyChange_ok_shape cf id none Change.root p hp
        have hres : Cfold.apply cf ⟨id, OpPayload.root⟩ = ApplyResult.ok cf2 := by
          simp only [Cfold.apply, hex, Bool.false_eq_true, if_false, if_neg hfu]
          rw [hac]
          rfl
        rw [hres]
        refine ⟨by simp [hex], by simp [hex, hfu], by simp [OpPayload.reference],
          by simp, ?_⟩
        intro cf' h
        injection h with h
        subst h
        exact ⟨⟨_, hlog⟩, hver⟩
      | insert r v =>
        cases r with
        | none =>
          have hres : Cfold.apply cf ⟨id, OpPayload.insert none v⟩ = ApplyResult.panic := by
            simp only [Cfold.apply, hex, Bool.false_eq_true, if_false, if_neg hfu]
            rfl
          rw [hres]
          have hexn : cf.logIndex id = none := by simpa using hex
          refine ⟨by simp [hexn], ?_, by simp [OpPayload.reference], ?_, by simp⟩
          · constructor
            · intro h
              exact absurd h (by simp)
            · rintro ⟨h1, h2⟩
              exact absurd h2 hfu
          · constructor
            · intro _
              exact ⟨hex, hfu, v, rfl⟩
            · intro _
              rfl
        | some t =>
          cases href : Cfold.logIndex cf t with
          | none =>
            have hres : Cfold.apply cf ⟨id, OpPayload.insert (some t) v⟩ =
                ApplyResult.error
                  (ChronofoldError.unknownReference ⟨id, OpPayload.insert (some t) v⟩) := by
              simp only [Cfold.apply, hex, Bool.false_eq_true, if_false, if_neg hfu, href]
              rfl
            rw [hres]
            refine ⟨by simp [hex], by simp [hex, hfu], ?_, by simp, by simp⟩
            constructor
            · intro _
              exact ⟨hex, hfu, t, rfl, href⟩
            · intro _
              rfl
          | some ref =>
            obtain ⟨p, hp⟩ :
                ∃ p, Cfold.findPredecessor cf id (some ref) (Change.insert v) = some p :=
              ⟨_, rfl⟩
            obtain ⟨cf2, n, hac, hlog, hver⟩ :=
              applyChange_ok_shape cf id (some ref) (Change.insert v) p hp
            have hres : Cfold.apply cf ⟨id, OpPayload.insert (some t) v⟩ =
                ApplyResult.ok cf2 := by
              simp only [Cfold.apply, hex, Bool.false_eq_true, if_false, if_neg hfu, href]
              rw [hac]
              rfl
            rw [hres]
            refine ⟨by simp [hex], by simp [hex, hfu],
              by simp [OpPayload.reference, href], by simp, ?_⟩
            intro cf' h
            injection h with h
            subst h
            exact ⟨⟨_, hlog⟩, hver⟩
      | delete t =>
        cases href : Cfold.logIndex cf t with
        | none =>
          have hres : Cfold.apply cf ⟨id, OpPayload.delete t⟩ =
              ApplyResult.error
                (ChronofoldError.unknownReference ⟨id, OpPayload.delete t⟩) := by
            simp only [Cfold.apply, hex, Bool.false_eq_true, if_false, if_neg hfu, href]
          rw [hres]
          refine ⟨by simp [hex], by simp [hex, hfu], ?_, by simp, by simp⟩
          constructor
          · intro _
            exact ⟨hex, hfu, t, rfl, href⟩
          · intro _
            rfl
        | some ref =>
          obtain ⟨p, hp⟩ :
              ∃ p, Cfold.findPredecessor cf id (some ref) (Change.delete (T := T)) = some p :=
            ⟨_, rfl⟩
          obtain ⟨cf2, n, hac, hlog, hver⟩ :=
            applyChange_ok_shape cf id (some ref) Change.delete p hp
          have hres : Cfold.apply cf ⟨id, OpPayload.delete t⟩ = ApplyResult.ok cf2 := by
            simp only [Cfold.apply, hex, Bool.false_eq_true, if_false, if_neg hfu, href]
            rw [hac]
            rfl
          rw [hres]
          refine ⟨by simp [hex], by simp [hex, hfu],
            by simp [OpPayload.reference, href], by simp, ?_⟩
          intro cf' h
          injection h with h
          subst h
          exact ⟨⟨_, hlog⟩, hver⟩

/-- Counterexample to claim C5 as stated: on a fresh chronofold, an op whose
payload is `Insert` with no reference timestamp passes the id checks and
then hits the `unreachable!` in `find_predecessor` — `apply` panics instead
of returning a structural error. -/
theorem C5_counterexample :
    Cfold.apply (Cfold.newCf Nat 0) (Op.insert ⟨1, 1⟩ none 5) =
      (ApplyResult.panic : ApplyResult Nat) := by
  decide

/-- Claim C5, amended: an `Insert` op carrying no reference that passes the
existing- and future-timestamp checks makes `apply` panic (the
`unreachable!` arm of `find_predecessor`); no structural error is returned. -/
theorem C5_insert_without_reference_panics {T : Type} (cf : Cfold T) (op : Op T) (v : T)
    (hex : ¬(Cfold.logIndex cf op.id).isSome) (hfu : ¬cf.log.length < op.id.idx)
    (hp : op.payload = OpPayload.insert none v) :
    Cfold.apply cf op = ApplyResult.panic := by
  obtain ⟨id, payload⟩ := op
  cases hp
  simp only [Cfold.apply, hex, Bool.false_eq_true, if_false, if_neg hfu]
  rfl

/-- Witness for the amended C5 at a concrete input. -/
theorem C5_insert_without_reference_panics_witness :
    Cfold.apply (Cfold.newCf Nat 7) (Op.insert ⟨1, 3⟩ none 9) =
      (ApplyResult.panic : ApplyResult Nat) :=
  C5_insert_without_reference_panics (Cfold.newCf Nat 7) (Op.insert ⟨1, 3⟩ none 9) 9
    (by decide) (by decide) rfl

/-! ### Claim C9: out-of-bounds reads -/

/-- Counterexample to claim C9 as stated: on a fresh chronofold (log length
1), `timestamp(1)` is out of bounds yet returns `Some` — the range-encoded
author and index-shift streams answer every query at or above their first
stored key — where the claim demands `None`. -/
theorem C9_counterexample :
    1 ≥ (Cfold.newCf Nat 1).log.length ∧
      Cfold.timestamp (Cfold.newCf Nat 1) 1 = some ⟨1, 1⟩ := by
  constructor
  · decide
  · rfl

theorem mem_of_getLast?_eq {α : Type} {l : List α} {x : α} (h : l.getLast? = some x) :
    x ∈ l := by
  have hx : x ∈ l.getLast? := Option.mem_def.mpr h
  obtain ⟨hne, heq⟩ := List.mem_getLast?_eq_getLast hx
  rw [heq]
  exact List.getLast_mem hne

/-- A range-map query succeeds at every key at or above some covered key. -/
theorem rangeMap_get_isSome_mono (m : RangeMap) (k k' : Nat) (hk : k ≤ k')
    (h : (m.get k).isSome) : (m.get k').isSome := by
  unfold RangeMap.get at h ⊢
  rcases hlast : (m.map.filter (fun p => p.1 ≤ k)).getLast? with _ | p
  · rw [hlast] at h
    simp at h
  · have hmem := List.mem_of_mem_filter (mem_of_getLast?_eq hlast)
    have hple : p.1 ≤ k := by
      have := List.of_mem_filter (mem_of_getLast?_eq hlast)
      simpa using this
    have : (m.map.filter (fun p => p.1 ≤ k')).getLast? ≠ none := by
      intro hnone
      rw [List.getLast?_eq_none_iff] at hnone
      have : p ∈ m.map.filter (fun p => p.1 ≤ k') :=
        List.mem_filter.mpr ⟨hmem, by simp; omega⟩
      rw [hnone] at this
      simp at this
    rcases h2 : (m.map.filter (fun p => p.1 ≤ k')).getLast? with _ | q
    · exact absurd h2 this
    · rw [h2]
      rfl

/-- Claim C9, amended: for out-of-bounds indices the `get` read path returns
`None` as claimed, but `timestamp` does not: whenever the author and
index-shift streams cover index 0 (as they do from construction onwards),
`timestamp(ℓ)` returns `Some` for every ℓ, out of bounds included, derived
from the trailing run of the range encoding. -/
theorem C9_out_of_bounds_reads {T : Type} (cf : Cfold T) (i : Nat)
    (hoob : cf.log.length ≤ i) (hcov : (Cfold.timestamp cf 0).isSome) :
    Cfold.get cf i = none ∧ (Cfold.timestamp cf i).isSome := by
  constructor
  · exact List.get?_eq_none.mpr hoob
  · unfold Cfold.timestamp at hcov ⊢
    rcases h1 : RangeMap.get cf.indexShifts 0 with _ | s0
    · rw [h1] at hcov
      simp at hcov
    · rcases h2 : RangeMap.get cf.authors 0 with _ | a0
      · rw [h1, h2] at hcov
        simp at hcov
      · have hs := rangeMap_get_isSome_mono cf.indexShifts 0 i (Nat.zero_le i)
          (by rw [h1]; rfl)
        have ha := rangeMap_get_isSome_mono cf.authors 0 i (Nat.zero_le i)
          (by rw [h2]; rfl)
        rcases h3 : RangeMap.get cf.indexShifts i with _ | s
        · rw [h3] at hs
          simp at hs
        · rcases h4 : RangeMap.get cf.authors i with _ | a
          · rw [h4] at ha
            simp at ha
          · rfl

/-- Witness for the amended C9 at a concrete input. -/
theorem C9_out_of_bounds_reads_witness :
    Cfold.get (Cfold.newCf Nat 1) 5 = none ∧
      (Cfold.timestamp (Cfold.newCf Nat 1) 5).isSome := by
  exact C9_out_of_bounds_reads (Cfold.newCf Nat 1) 5 (by decide) (by decide)

/-! ### Claim C2: predecessor resolution -/

theorem chainF_fuel_le (g : Nat → Option Nat) (n m : Nat) (c : Option Nat)
    (h : (Cfold.chainF g n c).length < n) (hnm : n ≤ m) : Cfold.chainF g m c = Cfold.chainF g n c := by
  induction n generalizing c m with
  | zero => omega
  | succ n ih =>
    obtain ⟨m', rfl⟩ : ∃ m', m = m' + 1 := ⟨m - 1, by omega⟩
    cases c with
    | none => rfl
    | some i =>
      simp only [Cfold.chainF, List.length_cons] at h ⊢
      rw [ih m' (g i) (by omega) (by omega)]

/-- The sibling-selection rule exactly as the claim words it: among the
entries after `ref` in causal order whose reference equals `ref`, keep those
that are a Delete or have a timestamp strictly greater than `τ`; if any
remain, the predecessor is the last element of the subtree rooted at the
last kept sibling, otherwise `ref` itself.  (Stated from the spec text, to
be compared against `findPredecessor` from the source.) -/
def specInsertPredecessor {T : Type} (cf : Cfold T) (τ : Timestamp) (ref : Nat) :
    Option Nat :=
  let entriesAfter := Cfold.chainF (Cfold.getNextIndex cf) cf.log.length
    (Cfold.getNextIndex cf ref)
  let siblings := entriesAfter.filter (fun q => Cfold.getReference cf q = some ref)
  let kept := siblings.filter (fun q =>
    Cfold.isDeleteAt cf q || Cfold.tsGtAt cf q τ)
  match kept.getLast? with
  | some q => (Cfold.iterSubtree cf q).getLast?
  | none => some ref

/-- Claim C2: for Insert ops the predecessor chosen by `find_predecessor`
is exactly the claim's rule (`specInsertPredecessor`), and for Delete ops
it is exactly the reference.  The two hypotheses hold on every reachable
state: `ref` does not list itself as its own reference, and the causal walk
beyond `ref` is shorter than the log. -/
theorem C2_predecessor_resolution {T : Type} (cf : Cfold T) (τ : Timestamp)
    (ref : Nat) (v : T)
    (hself : Cfold.getReference cf ref ≠ some ref)
    (hterm : (Cfold.chainF (Cfold.getNextIndex cf) cf.log.length
      (Cfold.getNextIndex cf ref)).length < cf.log.length) :
    Cfold.findPredecessor cf τ (some ref) (Change.insert v) =
        some (specInsertPredecessor cf τ ref) ∧
      ∀ r : Option Nat, Cfold.findPredecessor cf τ r (Change.delete (T := T)) = some r := by
  constructor
  · have hlist : (Cfold.causalFromIncluded cf ref).filter (fun i =>
        Cfold.getReference cf i = some ref &&
          (Cfold.isDeleteAt cf i || Cfold.tsGtAt cf i τ)) =
        ((Cfold.chainF (Cfold.getNextIndex cf) cf.log.length
            (Cfold.getNextIndex cf ref)).filter
          (fun q => Cfold.getReference cf q = some ref)).filter (fun q =>
            Cfold.isDeleteAt cf q || Cfold.tsGtAt cf q τ) := by
      rw [List.filter_filter]
      rw [show (fun (a : Nat) => (Cfold.isDeleteAt cf a || Cfold.tsGtAt cf a τ) &&
            decide (Cfold.getReference cf a = some ref)) =
          fun (i : Nat) => decide (Cfold.getReference cf i = some ref) &&
            (Cfold.isDeleteAt cf i || Cfold.tsGtAt cf i τ) from
        funext fun a => Bool.and_comm _ _]
      unfold Cfold.causalFromIncluded
      rcases hroot : cf.log.get? ref with _ | ch
      · simp only [hroot]
        rw [show cf.log.length + 1 = cf.log.length.succ from rfl, Cfold.chainF,
          List.filter_cons]
        have : (decide (Cfold.getReference cf ref = some ref) &&
            (Cfold.isDeleteAt cf ref || Cfold.tsGtAt cf ref τ)) = false := by
          have : (decide (Cfold.getReference cf ref = some ref)) = false := by
            simp [hself]
          simp [this]
        rw [this]
        simp only [Bool.false_eq_true, if_false]
      · cases ch with
        | root =>
          simp only [hroot]
          rw [chainF_fuel_le _ cf.log.length _ _ hterm (by omega)]
        | insert w =>
          simp only [hroot]
          rw [show cf.log.length + 1 = cf.log.length.succ from rfl, Cfold.chainF,
            List.filter_cons]
          have : (decide (Cfold.getReference cf ref = some ref) &&
              (Cfold.isDeleteAt cf ref || Cfold.tsGtAt cf ref τ)) = false := by
            have : (decide (Cfold.getReference cf ref = some ref)) = false := by
              simp [hself]
            simp [this]
          rw [this]
          simp only [Bool.false_eq_true, if_false]
        | delete =>
          simp only [hroot]
          rw [show cf.log.length + 1 = cf.log.length.succ from rfl, Cfold.chainF,
            List.filter_cons]
          have : (decide (Cfold.getReference cf ref = some ref) &&
              (Cfold.isDeleteAt cf ref || Cfold.tsGtAt cf ref τ)) = false := by
            have : (decide (Cfold.getReference cf ref = some ref)) = false := by
              simp [hself]
            simp [this]
          rw [this]
          simp only [Bool.false_eq_true, if_false]
    show some _ = some _
    congr 1
    unfold specInsertPredecessor
    simp only
    rw [← hlist]
  · intro r
    cases r <;> rfl

/-- Witness for C2 at a concrete chronofold. -/
theorem C2_predecessor_resolution_witness :
    Cfold.findPredecessor (Cfold.newCf Nat 1) ⟨1, 1⟩ (some 0) (Change.insert 5) =
        some (specInsertPredecessor (Cfold.newCf Nat 1) ⟨1, 1⟩ 0) ∧
      Cfold.findPredecessor (Cfold.newCf Nat 1) ⟨1, 1⟩ (some 0)
        (Change.delete (T := Nat)) = some (some 0) := by
  have h := C2_predecessor_resolution (Cfold.newCf Nat 1) ⟨1, 1⟩ 0 5
    (by decide) (by decide)
  exact ⟨h.1, h.2 (some 0)⟩

/-! ### Claim C3: the local fast path against the general path -/

/-- A state with log `[Root, Insert 7, Delete (of 1), Insert 8]` where the
fast path has attached the entry `Insert 8` to the tombstone at index 2
(its stored reference is 2, not 1). -/
def C3state : Cfold Nat :=
  (Cfold.applyLocalChanges
    ((Cfold.applyLocalChanges
      ((Cfold.applyLocalChanges (Cfold.newCf Nat 1) 1 0 [Change.insert 7]).1)
      1 1 [Change.delete]).1)
    1 1 [Change.insert 8]).1

/-- Counterexample to claim C3 as stated: on `C3state`, inserting one more
element after index 1 through `apply_local_changes` and through
`apply_change` with id `(log length, author)` yields different visible
element sequences — the fast path is not observably equivalent to the
general path. -/
theorem C3_counterexample :
    C3state.log.length = 4 ∧
      (Cfold.iterVisible
          (Cfold.applyLocalChanges C3state 1 1 [Change.insert 9]).1).map
        (fun l => l.map Prod.fst) = some [9, 8] ∧
      (Cfold.applyChange C3state ⟨4, 1⟩ (some 1) (Change.insert 9)).map
        (fun p => (Cfold.iterVisible p.1).map (fun l => l.map Prod.fst)) =
        some (some [8, 9]) ∧
      ([9, 8] : List Nat) ≠ [8, 9] := by
  refine ⟨by decide, by decide, by decide, by decide⟩

theorem offsetMap_get_set_ne (off : Int) (m : OffsetMap) (k k' : Nat) (v : Option Nat)
    (h : k' ≠ k) : OffsetMap.get off (OffsetMap.set off m k v) k' =
      OffsetMap.get off m k' := by
  cases v with
  | none =>
    simp only [OffsetMap.set, OffsetMap.get]
    rw [mapGet_mapInsert_ne _ _ _ _ h]
  | some w =>
    by_cases hdef : offAdd off k = w
    · simp only [OffsetMap.set, if_pos hdef, OffsetMap.get]
      rw [mapGet_mapRemove_ne _ _ _ h]
    · simp only [OffsetMap.set, if_neg hdef, OffsetMap.get]
      rw [mapGet_mapInsert_ne _ _ _ _ h]

/-- Claim C3, amended: for a single `Insert`, when no entry in the causal
walk from `reference` is a Delete referencing `reference` and no entry has
a timestamp above `(log length, author)` (both always true on reachable
states for the timestamp part, and the delete part being exactly the
situation the fast path's `find_last_delete` probe is for), the fast path
produces the same state as one `apply_change` with id
`(log length, author)` and the same reference.  In general the two paths
differ observably (`C3_counterexample`): the fast path attaches the new
entry to `find_last_delete(reference)` and stores that tombstone as the
entry's reference, while the general path stores `reference` itself and
places the entry after the tombstone's whole subtree. -/
theorem C3_fast_path_equivalence {T : Type} (cf : Cfold T) (author : Nat)
    (reference : Nat) (v : T)
    (hnodel : ∀ i ∈ Cfold.causalFromIncluded cf reference,
      ¬(Cfold.isDeleteAt cf i = true ∧ Cfold.getReference cf i = some reference))
    (hts : ∀ i ∈ Cfold.causalFromIncluded cf reference,
      Cfold.tsGtAt cf i ⟨cf.log.length, author⟩ = false) :
    Cfold.applyChange cf ⟨cf.log.length, author⟩ (some reference) (Change.insert v) =
        some ((Cfold.applyLocalChanges cf author reference [Change.insert v]).1,
          cf.log.length) ∧
      (Cfold.applyLocalChanges cf author reference [Change.insert v]).2 =
        some cf.log.length := by
  have hfd : Cfold.findLastDelete cf reference = none := by
    have hnil : ((Cfold.causalFromIncluded cf reference).drop 1).filter
        (fun i => Cfold.isDeleteAt cf i &&
          decide (Cfold.getReference cf i = some reference)) = [] := by
      rw [List.filter_eq_nil_iff]
      intro i hi hcon
      have h1 := hnodel i (List.mem_of_mem_drop hi)
      simp only [Bool.and_eq_true, decide_eq_true_eq] at hcon
      exact h1 ⟨hcon.1, hcon.2⟩
    unfold Cfold.findLastDelete
    rw [hnil]
    rfl
  have hfp : Cfold.findPredecessor cf ⟨cf.log.length, author⟩ (some reference)
      (Change.insert v) = some (some reference) := by
    have hnil : (Cfold.causalFromIncluded cf reference).filter
        (fun i => decide (Cfold.getReference cf i = some reference) &&
          (Cfold.isDeleteAt cf i ||
            Cfold.tsGtAt cf i ⟨cf.log.length, author⟩)) = [] := by
      rw [List.filter_eq_nil_iff]
      intro i hi hcon
      have h1 := hnodel i hi
      have h2 := hts i hi
      simp only [Bool.and_eq_true, Bool.or_eq_true, decide_eq_true_eq, h2] at hcon
      rcases hcon.2 with hc | hc
      · exact h1 ⟨hc, hcon.1⟩
      · exact absurd hc (by simp)
    have hexp : Cfold.findPredecessor cf ⟨cf.log.length, author⟩ (some reference)
        (Change.insert v) =
        some (match ((Cfold.causalFromIncluded cf reference).filter
            (fun i => decide (Cfold.getReference cf i = some reference) &&
              (Cfold.isDeleteAt cf i ||
                Cfold.tsGtAt cf i ⟨cf.log.length, author⟩))).getLast? with
          | some idx => (Cfold.iterSubtree cf idx).getLast?
          | none => some reference) := rfl
    rw [hexp, hnil]
    rfl
  constructor
  · rw [Cfold.applyChange, hfp]
    unfold Cfold.applyLocalChanges
    simp only [hfd, Option.getD_none, Option.map_some, Option.some.injEq,
      List.append_nil, List.length_nil, Nat.add_zero, Nat.sub_self]
    rfl
  · unfold Cfold.applyLocalChanges
    simp only [hfd, Option.getD_none]
    rfl

/-- Witness for the amended C3 at a concrete input. -/
theorem C3_fast_path_equivalence_witness :
    Cfold.applyChange (Cfold.newCf Nat 1) ⟨1, 1⟩ (some 0) (Change.insert 5) =
        some ((Cfold.applyLocalChanges (Cfold.newCf Nat 1) 1 0 [Change.insert 5]).1, 1) ∧
      (Cfold.applyLocalChanges (Cfold.newCf Nat 1) 1 0 [Change.insert 5]).2 = some 1 :=
  C3_fast_path_equivalence (Cfold.newCf Nat 1) 1 0 5 (by decide) (by decide)

/-! ### Claim C10: Session::push_back -/

/-- A state where every element is deleted (`iter()` is empty) and a Delete
entry references the primary root: log
`[Root, Delete (of 0), Insert 5 (of 0)]`, causal order `0, 2, 1`. -/
def C10state : Cfold Nat :=
  (Cfold.applyLocalChanges
    ((Cfold.applyLocalChanges (Cfold.newCf Nat 1) 1 0 [Change.delete]).1)
    1 0 [Change.insert 5]).1

/-- Counterexample to claim C10 as stated: on `C10state`, `iter()` yields
nothing, yet `push_back` does not insert the new element immediately after
the primary root: the root's next pointer still leads to the old entry 2,
and the new entry 3 sits at the end of the causal order (after the
tombstone that `find_last_delete` located), not at its front. -/
theorem C10_counterexample :
    Cfold.iterVisible C10state = some [] ∧
      (Cfold.pushBack C10state 1 6).map
        (fun p => (p.2, Cfold.getNextIndex p.1 C10state.root,
          Cfold.chainF (Cfold.getNextIndex p.1) 5 (some C10state.root))) =
        some (3, some 2, [0, 2, 1, 3]) ∧
      (some 2 : Option Nat) ≠ some 3 := by
  refine ⟨by decide, by decide, by decide⟩

/-- The first appended entry of a one-change local batch is spliced right
after the effective predecessor, which is the reference itself whenever
`find_last_delete` finds nothing. -/
theorem applyLocalChanges_single_next {T : Type} (cf : Cfold T) (a : Nat) (r : Nat)
    (ch : Change T) (hfd : Cfold.findLastDelete cf r = none)
    (hne : r ≠ cf.log.length) (hlen : cf.log.length < USIZE) :
    Cfold.getNextIndex (Cfold.applyLocalChanges cf a r [ch]).1 r =
      some cf.log.length := by
  unfold Cfold.applyLocalChanges
  simp only [hfd, Option.getD_none]
  show Cfold.getNextIndex _ r = _
  unfold Cfold.getNextIndex
  simp only [List.length_nil, Nat.add_zero]
  rw [offsetMap_get_set_ne 1 _ cf.log.length r _ (by omega)]
  exact offsetMap_get_set_self 1 cf.nextIndices r cf.log.length hlen

/-- Claim C10, amended: `push_back` returns the next log index and inserts
after the chosen reference — the primary root when `iter()` is empty, the
last visible element otherwise — in the sense of
`insert_after(reference)`.  The new element lands immediately after that
reference (and hence, in the empty case, first in causal order) only when
no Delete referencing the reference is found by `find_last_delete`;
otherwise the batch attaches after that tombstone (`C10_counterexample`). -/
theorem C10_push_back {T : Type} (cf : Cfold T) (a : Nat) (v : T)
    (cf' : Cfold T) (idx : Nat)
    (h : Cfold.pushBack cf a v = some (cf', idx))
    (hroot : cf.root ≠ cf.log.length) (hlen : cf.log.length < USIZE) :
    idx = cf.log.length ∧
      (Cfold.iterVisible cf = some [] → Cfold.findLastDelete cf cf.root = none →
        Cfold.getNextIndex cf' cf.root = some idx) ∧
      (∀ es e, Cfold.iterVisible cf = some es → es.getLast? = some e →
        Cfold.findLastDelete cf e.2 = none → e.2 ≠ cf.log.length →
        Cfold.getNextIndex cf' e.2 = some idx) := by
  unfold Cfold.pushBack at h
  rcases hit : Cfold.iterVisible cf with _ | es
  · rw [hit] at h
    simp at h
  · rw [hit] at h
    have hh : Option.map (fun i => ((Cfold.applyLocalChanges cf a
          ((es.getLast?).elim cf.root (fun p => p.2)) [Change.insert v]).1, i))
        (Cfold.applyLocalChanges cf a ((es.getLast?).elim cf.root (fun p => p.2))
          [Change.insert v]).2 = some (cf', idx) := h
    have hres : (Cfold.applyLocalChanges cf a
        ((es.getLast?).elim cf.root (fun p => p.2)) [Change.insert v]).2 =
        some cf.log.length := by
      unfold Cfold.applyLocalChanges
      rfl
    rw [hres] at hh
    rw [Option.map_some'] at hh
    simp only [Option.some.injEq, Prod.mk.injEq] at hh
    obtain ⟨hcf', hidx⟩ := hh
    refine ⟨hidx.symm, ?_, ?_⟩
    · intro hempty hfd
      injection hempty with hempty
      subst hempty
      simp only [List.getLast?_nil, Option.elim_none] at hcf'
      rw [← hcf', ← hidx]
      exact applyLocalChanges_single_next cf a cf.root (Change.insert v) hfd hroot hlen
    · intro es' e hes' hlast hfd hne
      injection hes' with hes'
      subst hes'
      rw [hlast] at hcf'
      simp only [Option.elim_some] at hcf'
      rw [← hcf', ← hidx]
      exact applyLocalChanges_single_next cf a e.2 (Change.insert v) hfd hne hlen

/-- Witness for the amended C10 at a concrete input: a fresh chronofold
holding one visible element. -/
theorem C10_push_back_witness :
    (Cfold.pushBack ((Cfold.applyLocalChanges (Cfold.newCf Nat 1) 1 0
          [Change.insert 4]).1) 1 6).isSome ∧
      ∀ p, Cfold.pushBack ((Cfold.applyLocalChanges (Cfold.newCf Nat 1) 1 0
          [Change.insert 4]).1) 1 6 = some p →
        p.2 = 2 ∧ Cfold.getNextIndex p.1 1 = some 2 := by
  constructor
  · decide
  · intro p hp
    have h := C10_push_back _ 1 6 p.1 p.2 (by rw [hp]) (by decide) (by decide)
    refine ⟨by rw [h.1]; rfl, ?_⟩
    have h2 := h.2.2 [(4, 1)] (4, 1) (by decide) (by decide) (by decide) (by decide)
    rw [show (2 : Nat) = p.2 from by rw [h.1]; rfl]
    exact h2

/-! ### Claim C7: timestamp / log-index translation

The proof goes by an invariant over all states reachable through the two
mutating entry points (`apply` and `apply_local_changes`): every in-bounds
index has a timestamp whose author index does not exceed it, and timestamps
are pairwise distinct. -/

theorem mem_drop_range {n m a : Nat} :
    a ∈ (List.range n).drop m ↔ m ≤ a ∧ a < n := by
  rw [List.mem_drop_iff_getElem]
  constructor
  · rintro ⟨i, hi, rfl⟩
    simp at hi ⊢
    omega
  · intro ⟨h1, h2⟩
    refine ⟨a - m, by simp; omega, ?_⟩
    simp
    omega

theorem find?_eq_some_of_unique {α : Type} (l : List α) (p : α → Bool) (x : α)
    (hx : x ∈ l) (hpx : p x = true) (huniq : ∀ y ∈ l, p y = true → y = x) :
    l.find? p = some x := by
  induction l with
  | nil => cases hx
  | cons a rest ih =>
    rcases hpa : p a with _ | _
    · rw [List.find?_cons_of_neg _ (by simp [hpa])]
      rcases List.mem_cons.mp hx with rfl | hx'
      · rw [hpx] at hpa
        cases hpa
      · exact ih hx' (fun y hy hpy => huniq y (List.mem_cons_of_mem _ hy) hpy)
    · rw [List.find?_cons_of_pos _ hpa]
      rw [huniq a (List.mem_cons_self _ _) hpa]

theorem filter_mapInsert_of_gt {V : Type} (m : List (Nat × V)) (k : Nat) (v : V)
    (q : Nat) (h : q < k) :
    (mapInsert m k v).filter (fun p => p.1 ≤ q) = m.filter (fun p => p.1 ≤ q) := by
  induction m with
  | nil =>
    show List.filter _ [(k, v)] = _
    simp only [List.filter_cons, List.filter_nil]
    rw [if_neg (by simp only [decide_eq_true_eq]; omega)]
  | cons p rest ih =>
    obtain ⟨k0, v0⟩ := p
    by_cases h1 : k < k0
    · rw [show mapInsert ((k0, v0) :: rest) k v = (k, v) :: (k0, v0) :: rest from by
        simp only [mapInsert, if_pos h1]]
      simp only [List.filter_cons]
      rw [if_neg (by simp only [decide_eq_true_eq]; omega)]
    · by_cases h2 : k = k0
      · rw [show mapInsert ((k0, v0) :: rest) k v = (k, v) :: rest from by
          simp only [mapInsert, if_neg h1, if_pos h2]]
        simp only [List.filter_cons]
        rw [if_neg (by simp only [decide_eq_true_eq]; omega),
          if_neg (by simp only [decide_eq_true_eq]; omega)]
      · rw [show mapInsert ((k0, v0) :: rest) k v = (k0, v0) :: mapInsert rest k v from by
          simp only [mapInsert, if_neg h1, if_neg h2]]
        simp only [List.filter_cons]
        rw [ih]

/-- Setting a range-map key above a query leaves the query unchanged. -/
theorem rangeMap_set_get_lt (m : RangeMap) (k : Nat) (v : Nat) (q : Nat)
    (h : q < k) : (m.set k v).get q = m.get q := by
  unfold RangeMap.set
  split_ifs with helide
  · rfl
  · unfold RangeMap.get
    rw [filter_mapInsert_of_gt _ _ _ _ h]

theorem mapInsert_append_of_keys_lt {V : Type} (m : List (Nat × V)) (k : Nat)
    (v : V) (h : ∀ p ∈ m, p.1 < k) : mapInsert m k v = m ++ [(k, v)] := by
  induction m with
  | nil => rfl
  | cons p rest ih =>
    obtain ⟨k0, v0⟩ := p
    have hk0 : k0 < k := h (k0, v0) (List.mem_cons_self _ _)
    simp only [mapInsert, if_neg (by omega : ¬k < k0), if_neg (by omega : ¬k = k0)]
    rw [ih (fun p hp => h p (List.mem_cons_of_mem _ hp))]
    rfl

/-- After setting a key above every stored key, any query at or beyond that
key reads the written value (write elision included). -/
theorem rangeMap_set_get_ge (m : RangeMap) (k : Nat) (v : Nat) (q : Nat)
    (hkeys : ∀ p ∈ m.map, p.1 < k) (hq : k ≤ q) : (m.set k v).get q = some v := by
  have hfull : ∀ r, k ≤ r → m.map.filter (fun p => p.1 ≤ r) = m.map := by
    intro r hr
    apply List.filter_eq_self.mpr
    intro p hp
    have := hkeys p hp
    simp
    omega
  unfold RangeMap.set
  split_ifs with helide
  · unfold RangeMap.get at helide ⊢
    rw [hfull q hq]
    rw [hfull k (le_refl k)] at helide
    exact helide
  · unfold RangeMap.get
    rw [mapInsert_append_of_keys_lt _ _ _ hkeys, List.filter_append, hfull q hq]
    rw [show List.filter (fun p => p.1 ≤ q) [(k, v)] = [(k, v)] by simp [hq]]
    rw [List.getLast?_append]
    rfl

/-- Keys present after a range-map set. -/
theorem rangeMap_set_keys (m : RangeMap) (k : Nat) (v : Nat) (b : Nat)
    (hkeys : ∀ p ∈ m.map, p.1 < b) (hk : k < b) :
    ∀ p ∈ (m.set k v).map, p.1 < b := by
  unfold RangeMap.set
  split_ifs with helide
  · exact hkeys
  · intro p hp
    rcases mem_mapInsert _ _ _ _ hp with rfl | hp'
    · exact hk
    · exact hkeys p hp'

/-- States reachable through the two mutating entry points: construction,
successful `apply`, and `apply_local_changes` from a session (whose
reference argument is an existing log index). -/
inductive Reach (T : Type) : Cfold T → Prop where
  | base (a : Nat) : Reach T (Cfold.newCf T a)
  | applyStep {cf cf' : Cfold T} (op : Op T) :
      Reach T cf → Cfold.apply cf op = ApplyResult.ok cf' → Reach T cf'
  | localStep {cf : Cfold T} (a r : Nat) (changes : List (Change T)) :
      Reach T cf → r < cf.log.length →
      Reach T (Cfold.applyLocalChanges cf a r changes).1

/-- The timestamp-translation invariant: every in-bounds index carries a
timestamp whose author index does not exceed it, timestamps are pairwise
distinct, and the two range-encoded streams store no key at or beyond the
log length. -/
structure WFts {T : Type} (cf : Cfold T) : Prop where
  len_pos : 0 < cf.log.length
  shifts_keys : ∀ p ∈ cf.indexShifts.map, p.1 < cf.log.length
  authors_keys : ∀ p ∈ cf.authors.map, p.1 < cf.log.length
  ts_le : ∀ ℓ, ℓ < cf.log.length → ∃ t, Cfold.timestamp cf ℓ = some t ∧ t.idx ≤ ℓ
  ts_inj : ∀ ℓ1 ℓ2, ℓ1 < cf.log.length → ℓ2 < cf.log.length →
    Cfold.timestamp cf ℓ1 = Cfold.timestamp cf ℓ2 → ℓ1 = ℓ2

/-- `apply_change` leaves every field but the two range streams, the log
and the version untouched only up to the next-pointer streams; what C7
needs is the exact shape of the log, authors and index shifts. -/
theorem applyChange_fields {T : Type} (cf : Cfold T) (id : Timestamp)
    (ref : Option Nat) (ch : Change T) (cf' : Cfold T) (n : Nat)
    (h : Cfold.applyChange cf id ref ch = some (cf', n)) :
    cf'.log = cf.log ++ [ch] ∧
      cf'.authors = cf.authors.set cf.log.length id.author ∧
      cf'.indexShifts = cf.indexShifts.set cf.log.length (cf.log.length - id.idx) := by
  unfold Cfold.applyChange at h
  rcases hfp : Cfold.findPredecessor cf id ref ch with _ | p
  · rw [hfp] at h
    cases h
  · rw [hfp] at h
    rw [Option.map_some'] at h
    injection h with h
    injection h with h1 h2
    subst h1
    exact ⟨rfl, rfl, rfl⟩

theorem timestamp_eq_of_maps {T T2 : Type} (cf : Cfold T) (cf2 : Cfold T2) (ℓ : Nat)
    (hs : RangeMap.get cf2.indexShifts ℓ = RangeMap.get cf.indexShifts ℓ)
    (ha : RangeMap.get cf2.authors ℓ = RangeMap.get cf.authors ℓ) :
    Cfold.timestamp cf2 ℓ = Cfold.timestamp cf ℓ := by
  unfold Cfold.timestamp
  rw [hs, ha]

theorem logIndex_none_ts {T : Type} {cf : Cfold T} {id : Timestamp}
    (h : Cfold.logIndex cf id = none) :
    ∀ ℓ, id.idx ≤ ℓ → ℓ < cf.log.length → Cfold.timestamp cf ℓ ≠ some id := by
  unfold Cfold.logIndex at h
  rw [List.find?_eq_none] at h
  intro ℓ hge hlt hts
  exact absurd (by simp [hts]) (h ℓ (mem_drop_range.mpr ⟨hge, hlt⟩))

theorem WFts_applyChange {T : Type} {cf cf' : Cfold T} {id : Timestamp}
    {ref : Option Nat} {ch : Change T} {n : Nat}
    (hw : WFts cf) (hidx : id.idx ≤ cf.log.length)
    (hnew : ∀ ℓ, id.idx ≤ ℓ → ℓ < cf.log.length → Cfold.timestamp cf ℓ ≠ some id)
    (h : Cfold.applyChange cf id ref ch = some (cf', n)) : WFts cf' := by
  obtain ⟨hlog, hauth, hshift⟩ := applyChange_fields cf id ref ch cf' n h
  have hlen' : cf'.log.length = cf.log.length + 1 := by
    rw [hlog]
    simp
  have hpres : ∀ ℓ, ℓ < cf.log.length →
      Cfold.timestamp cf' ℓ = Cfold.timestamp cf ℓ := by
    intro ℓ hℓ
    apply timestamp_eq_of_maps
    · rw [hshift]
      exact rangeMap_set_get_lt _ _ _ _ hℓ
    · rw [hauth]
      exact rangeMap_set_get_lt _ _ _ _ hℓ
  have hts_new : Cfold.timestamp cf' cf.log.length = some id := by
    unfold Cfold.timestamp
    rw [hshift, hauth,
      rangeMap_set_get_ge _ _ _ _ hw.shifts_keys (le_refl _),
      rangeMap_set_get_ge _ _ _ _ hw.authors_keys (le_refl _)]
    show some ⟨cf.log.length - (cf.log.length - id.idx), id.author⟩ = some id
    have : cf.log.length - (cf.log.length - id.idx) = id.idx := by omega
    rw [this]
  constructor
  · omega
  · rw [hshift, hlen']
    exact rangeMap_set_keys _ _ _ _ (fun p hp => by have := hw.shifts_keys p hp; omega)
      (by omega)
  · rw [hauth, hlen']
    exact rangeMap_set_keys _ _ _ _ (fun p hp => by have := hw.authors_keys p hp; omega)
      (by omega)
  · intro ℓ hℓ
    rw [hlen'] at hℓ
    rcases Nat.lt_or_ge ℓ cf.log.length with hc | hc
    · obtain ⟨t, ht, hle⟩ := hw.ts_le ℓ hc
      exact ⟨t, by rw [hpres ℓ hc]; exact ht, hle⟩
    · have : ℓ = cf.log.length := by omega
      subst this
      exact ⟨id, hts_new, hidx⟩
  · intro ℓ1 ℓ2 h1 h2 heq
    rw [hlen'] at h1 h2
    rcases Nat.lt_or_ge ℓ1 cf.log.length with hc1 | hc1 <;>
      rcases Nat.lt_or_ge ℓ2 cf.log.length with hc2 | hc2
    · rw [hpres ℓ1 hc1, hpres ℓ2 hc2] at heq
      exact hw.ts_inj ℓ1 ℓ2 hc1 hc2 heq
    · exfalso
      have hℓ2 : ℓ2 = cf.log.length := by omega
      subst hℓ2
      rw [hpres ℓ1 hc1, hts_new] at heq
      obtain ⟨t, ht, hle⟩ := hw.ts_le ℓ1 hc1
      rw [ht] at heq
      injection heq with heq
      subst heq
      exact hnew ℓ1 (by omega) hc1 ht
    · exfalso
      have hℓ1 : ℓ1 = cf.log.length := by omega
      subst hℓ1
      rw [hpres ℓ2 hc2, hts_new] at heq
      obtain ⟨t, ht, hle⟩ := hw.ts_le ℓ2 hc2
      rw [ht] at heq
      injection heq with heq
      subst heq
      exact hnew ℓ2 (by omega) hc2 ht
    · omega

theorem apply_ok_elim {T : Type} {cf cf' : Cfold T} {op : Op T}
    (h : Cfold.apply cf op = ApplyResult.ok cf') :
    Cfold.logIndex cf op.id = none ∧ op.id.idx ≤ cf.log.length ∧
      ∃ ref ch n, Cfold.applyChange cf op.id ref ch = some (cf', n) := by
  by_cases hex : (Cfold.logIndex cf op.id).isSome
  · rw [show Cfold.apply cf op =
      ApplyResult.error (ChronofoldError.existingTimestamp op) from by
        simp [Cfold.apply, hex]] at h
    cases h
  · by_cases hfu : cf.log.length < op.id.idx
    · rw [show Cfold.apply cf op =
        ApplyResult.error (ChronofoldError.futureTimestamp op) from by
          simp [Cfold.apply, hex, hfu]] at h
      cases h
    · have hexn : Cfold.logIndex cf op.id = none := by
        simpa using hex
      refine ⟨hexn, by omega, ?_⟩
      obtain ⟨id, payload⟩ := op
      cases payload with
      | root =>
        simp only [Cfold.apply, hex, Bool.false_eq_true, if_false, if_neg hfu] at h
        rcases hac : Cfold.applyChange cf id none (Change.root (T := T)) with _ | p
        · rw [hac] at h
          cases h
        · rw [hac] at h
          obtain ⟨c2, n⟩ := p
          injection h with h
          subst h
          exact ⟨none, Change.root, n, hac⟩
      | insert r v =>
        cases r with
        | none =>
          simp only [Cfold.apply, hex, Bool.false_eq_true, if_false, if_neg hfu] at h
          have : Cfold.applyChange cf id none (Change.insert v) = none := by
            unfold Cfold.applyChange Cfold.findPredecessor
            rfl
          rw [this] at h
          cases h
        | some t =>
          simp only [Cfold.apply, hex, Bool.false_eq_true, if_false, if_neg hfu] at h
          rcases href : Cfold.logIndex cf t with _ | ref
          · rw [href] at h
            cases h
          · rw [href] at h
            have h2 : liftAC (Cfold.applyChange cf id (some ref) (Change.insert v)) =
                ApplyResult.ok cf' := h
            rcases hac : Cfold.applyChange cf id (some ref) (Change.insert v) with _ | p
            · rw [hac] at h2
              cases h2
            · rw [hac] at h2
              obtain ⟨c2, n⟩ := p
              injection h2 with h2
              subst h2
              exact ⟨some ref, Change.insert v, n, hac⟩
      | delete t =>
        simp only [Cfold.apply, hex, Bool.false_eq_true, if_false, if_neg hfu] at h
        rcases href : Cfold.logIndex cf t with _ | ref
        · rw [href] at h
          cases h
        · rw [href] at h
          have h2 : liftAC (Cfold.applyChange cf id (some ref) (Change.delete (T := T))) =
              ApplyResult.ok cf' := h
          rcases hac : Cfold.applyChange cf id (some ref) (Change.delete (T := T)) with _ | p
          · rw [hac] at h2
            cases h2
          · rw [hac] at h2
            obtain ⟨c2, n⟩ := p
            injection h2 with h2
            subst h2
            exact ⟨some ref, Change.delete, n, hac⟩

theorem WFts_applyLocal {T : Type} {cf : Cfold T} (hw : WFts cf) (a r : Nat)
    (changes : List (Change T)) : WFts (Cfold.applyLocalChanges cf a r changes).1 := by
  cases changes with
  | nil => exact hw
  | cons first rest =>
    have hlog : (Cfold.applyLocalChanges cf a r (first :: rest)).1.log =
        (cf.log ++ [first]) ++ rest := rfl
    have hauth : (Cfold.applyLocalChanges cf a r (first :: rest)).1.authors =
        cf.authors.set cf.log.length a := rfl
    have hshift : (Cfold.applyLocalChanges cf a r (first :: rest)).1.indexShifts =
        cf.indexShifts.set cf.log.length 0 := rfl
    have hlen' : (Cfold.applyLocalChanges cf a r (first :: rest)).1.log.length =
        cf.log.length + 1 + rest.length := by
      rw [hlog]
      simp
      omega
    set cf' := (Cfold.applyLocalChanges cf a r (first :: rest)).1 with hcf'
    have hpres : ∀ ℓ, ℓ < cf.log.length →
        Cfold.timestamp cf' ℓ = Cfold.timestamp cf ℓ := by
      intro ℓ hℓ
      apply timestamp_eq_of_maps
      · rw [hshift]
        exact rangeMap_set_get_lt _ _ _ _ hℓ
      · rw [hauth]
        exact rangeMap_set_get_lt _ _ _ _ hℓ
    have hts_new : ∀ ℓ, cf.log.length ≤ ℓ →
        Cfold.timestamp cf' ℓ = some ⟨ℓ, a⟩ := by
      intro ℓ hℓ
      unfold Cfold.timestamp
      rw [hshift, hauth,
        rangeMap_set_get_ge _ _ _ _ hw.shifts_keys hℓ,
        rangeMap_set_get_ge _ _ _ _ hw.authors_keys hℓ]
      show (some (⟨ℓ - 0, a⟩ : Timestamp) : Option Timestamp) = some ⟨ℓ, a⟩
      rw [Nat.sub_zero]
    constructor
    · rw [hlen']
      omega
    · rw [hshift, hlen']
      exact rangeMap_set_keys _ _ _ _
        (fun p hp => by have := hw.shifts_keys p hp; omega) (by omega)
    · rw [hauth, hlen']
      exact rangeMap_set_keys _ _ _ _
        (fun p hp => by have := hw.authors_keys p hp; omega) (by omega)
    · intro ℓ hℓ
      rcases Nat.lt_or_ge ℓ cf.log.length with hc | hc
      · obtain ⟨t, ht, hle⟩ := hw.ts_le ℓ hc
        exact ⟨t, by rw [hpres ℓ hc]; exact ht, hle⟩
      · exact ⟨⟨ℓ, a⟩, hts_new ℓ hc, le_refl ℓ⟩
    · intro ℓ1 ℓ2 h1 h2 heq
      rcases Nat.lt_or_ge ℓ1 cf.log.length with hc1 | hc1 <;>
        rcases Nat.lt_or_ge ℓ2 cf.log.length with hc2 | hc2
      · rw [hpres ℓ1 hc1, hpres ℓ2 hc2] at heq
        exact hw.ts_inj ℓ1 ℓ2 hc1 hc2 heq
      · exfalso
        rw [hpres ℓ1 hc1, hts_new ℓ2 hc2] at heq
        obtain ⟨t, ht, hle⟩ := hw.ts_le ℓ1 hc1
        rw [ht] at heq
        injection heq with heq
        rw [heq] at hle
        simp at hle
        omega
      · exfalso
        rw [hpres ℓ2 hc2, hts_new ℓ1 hc1] at heq
        obtain ⟨t, ht, hle⟩ := hw.ts_le ℓ2 hc2
        rw [ht] at heq
        injection heq with heq
        rw [← heq] at hle
        simp at hle
        omega
      · rw [hts_new ℓ1 hc1, hts_new ℓ2 hc2] at heq
        injection heq with heq
        exact congrArg Timestamp.idx heq

/-- Every reachable state satisfies the timestamp invariant. -/
theorem WFts_reach {T : Type} {cf : Cfold T} (h : Reach T cf) : WFts cf := by
  induction h with
  | base a =>
    constructor
    · simp [Cfold.newCf]
    · intro p hp
      have hm : (Cfold.newCf T a).indexShifts.map = [(0, 0)] := rfl
      rw [hm] at hp
      simp only [List.mem_singleton] at hp
      subst hp
      show (0 : Nat) < (Cfold.newCf T a).log.length
      simp [Cfold.newCf]
    · intro p hp
      have hm : (Cfold.newCf T a).authors.map = [(0, a)] := rfl
      rw [hm] at hp
      simp only [List.mem_singleton] at hp
      subst hp
      show (0 : Nat) < (Cfold.newCf T a).log.length
      simp [Cfold.newCf]
    · intro ℓ hℓ
      have : ℓ = 0 := by
        simp [Cfold.newCf] at hℓ
        omega
      subst this
      exact ⟨⟨0, a⟩, rfl, le_refl 0⟩
    · intro ℓ1 ℓ2 h1 h2 _
      simp [Cfold.newCf] at h1 h2
      omega
  | applyStep op hreach hok ih =>
    obtain ⟨hexn, hidx, ref, ch, n, hac⟩ := apply_ok_elim hok
    exact WFts_applyChange ih hidx (logIndex_none_ts hexn) hac
  | localStep a r changes hreach hr ih =>
    exact WFts_applyLocal ih a r changes

/-- Claim C7: for every in-bounds index of a reachable chronofold, the
timestamp is `(ℓ - IndexShift(ℓ), Author(ℓ))`, and `log_index` inverts
`timestamp`. -/
theorem C7_timestamp_roundtrip {T : Type} (cf : Cfold T) (hr : Reach T cf)
    (ℓ : Nat) (hℓ : ℓ < cf.log.length) :
    (∃ s a, RangeMap.get cf.indexShifts ℓ = some s ∧
        RangeMap.get cf.authors ℓ = some a ∧
        Cfold.timestamp cf ℓ = some ⟨ℓ - s, a⟩) ∧
      ∀ t, Cfold.timestamp cf ℓ = some t → Cfold.logIndex cf t = some ℓ := by
  have hw := WFts_reach hr
  constructor
  · obtain ⟨t, ht, hle⟩ := hw.ts_le ℓ hℓ
    rcases hs : RangeMap.get cf.indexShifts ℓ with _ | s
    · unfold Cfold.timestamp at ht
      rw [hs] at ht
      cases ht
    · rcases hau : RangeMap.get cf.authors ℓ with _ | a
      · unfold Cfold.timestamp at ht
        rw [hs, hau] at ht
        cases ht
      · refine ⟨s, a, rfl, rfl, ?_⟩
        unfold Cfold.timestamp
        rw [hs, hau]
  · intro t ht
    obtain ⟨t', ht', hle⟩ := hw.ts_le ℓ hℓ
    rw [ht] at ht'
    injection ht' with ht'
    subst ht'
    unfold Cfold.logIndex
    apply find?_eq_some_of_unique
    · exact mem_drop_range.mpr ⟨hle, hℓ⟩
    · simp [ht]
    · intro y hy hpy
      have hylt : y < cf.log.length := (mem_drop_range.mp hy).2
      simp only [decide_eq_true_eq] at hpy
      exact hw.ts_inj y ℓ hylt hℓ (by rw [hpy, ht])

/-- Witness for C7 at a concrete input. -/
theorem C7_timestamp_roundtrip_witness :
    (∃ s a, RangeMap.get (Cfold.newCf Nat 1).indexShifts 0 = some s ∧
        RangeMap.get (Cfold.newCf Nat 1).authors 0 = some a ∧
        Cfold.timestamp (Cfold.newCf Nat 1) 0 = some ⟨0 - s, a⟩) ∧
      Cfold.logIndex (Cfold.newCf Nat 1) ⟨0, 1⟩ = some 0 := by
  have h := C7_timestamp_roundtrip (Cfold.newCf Nat 1) (Reach.base 1) 0 (by decide)
  exact ⟨h.1, h.2 ⟨0, 1⟩ rfl⟩

/-! ### Claim C6: the next-pointer chain

The chain argument works with an inductive path predicate: `PathFrom g c L
c'` states that starting from pointer `c` and repeatedly following `g`, the
indices `L` are visited in order, leaving the pointer at `c'`.  The reified
`chainF` traversal agrees with `PathFrom … none` whenever the fuel exceeds
the path length. -/

def PathFrom (g : Nat → Option Nat) : Option Nat → List Nat → Option Nat → Prop
  | c, [], c' => c' = c
  | c, x :: rest, c' => c = some x ∧ PathFrom g (g x) rest c'

theorem pathFrom_append (g : Nat → Option Nat) (X Y : List Nat) (c c' : Option Nat) :
    PathFrom g c (X ++ Y) c' ↔ ∃ d, PathFrom g c X d ∧ PathFrom g d Y c' := by
  induction X generalizing c with
  | nil =>
    simp only [List.nil_append]
    constructor
    · intro h
      exact ⟨c, rfl, h⟩
    · rintro ⟨d, hd, h⟩
      rw [show d = c from hd] at h
      exact h
  | cons x rest ih =>
    simp only [List.cons_append]
    constructor
    · rintro ⟨hc, h⟩
      obtain ⟨d, h1, h2⟩ := (ih (g x)).mp h
      exact ⟨d, ⟨hc, h1⟩, h2⟩
    · rintro ⟨d, ⟨hc, h1⟩, h2⟩
      exact ⟨hc, (ih (g x)).mpr ⟨d, h1, h2⟩⟩

theorem pathFrom_congr {g g' : Nat → Option Nat} {c c' : Option Nat} {L : List Nat}
    (h : PathFrom g c L c') (hg : ∀ x ∈ L, g' x = g x) : PathFrom g' c L c' := by
  induction L generalizing c with
  | nil => exact h
  | cons x rest ih =>
    obtain ⟨hc, hrest⟩ := h
    refine ⟨hc, ?_⟩
    rw [hg x (List.mem_cons_self _ _)]
    exact ih hrest (fun y hy => hg y (List.mem_cons_of_mem _ hy))

theorem chainF_eq_of_pathFrom {g : Nat → Option Nat} {c : Option Nat} {L : List Nat}
    (h : PathFrom g c L none) : ∀ m, L.length < m → Cfold.chainF g m c = L := by
  induction L generalizing c with
  | nil =>
    intro m hm
    rw [show c = none from h.symm]
    obtain ⟨m', rfl⟩ : ∃ m', m = m' + 1 := ⟨m - 1, by omega⟩
    rfl
  | cons x rest ih =>
    intro m hm
    obtain ⟨hc, hrest⟩ := h
    obtain ⟨m', rfl⟩ : ∃ m', m = m' + 1 := ⟨m - 1, by omega⟩
    rw [hc]
    show x :: Cfold.chainF g m' (g x) = x :: rest
    rw [ih hrest m' (by simpa using hm)]

theorem pathFrom_of_chainF {g : Nat → Option Nat} :
    ∀ (m : Nat) (c : Option Nat) (L : List Nat), Cfold.chainF g m c = L →
      L.length < m → PathFrom g c L none := by
  intro m
  induction m with
  | zero => omega
  | succ m ih =>
    intro c L hc hlen
    cases c with
    | none =>
      rw [← hc]
      rfl
    | some x =>
      rw [show Cfold.chainF g (m + 1) (some x) = x :: Cfold.chainF g m (g x) from rfl]
        at hc
      subst hc
      exact ⟨rfl, ih (g x) _ rfl (by simpa using hlen)⟩

theorem pathFrom_range' (g : Nat → Option Nat) :
    ∀ (m start : Nat) (nxt : Option Nat), 0 < m →
      (∀ j, start ≤ j → j + 1 < start + m → g j = some (j + 1)) →
      g (start + m - 1) = nxt →
      PathFrom g (some start) (List.range' start m) nxt := by
  intro m
  induction m with
  | zero => omega
  | succ m ih =>
    intro start nxt hpos hint hlast
    rcases Nat.eq_zero_or_pos m with hm | hm
    · subst hm
      refine ⟨rfl, ?_⟩
      show PathFrom g (g start) [] nxt
      have : start + 1 - 1 = start := by omega
      rw [this] at hlast
      exact hlast.symm
    · refine ⟨rfl, ?_⟩
      rw [hint start (le_refl _) (by omega)]
      have := ih (start + 1) nxt hm
        (fun j hj1 hj2 => hint j (by omega) (by omega))
        (by rw [show start + 1 + m - 1 = start + (m + 1) - 1 by omega]; exact hlast)
      exact this

theorem asUsize_lt (i : Int) : asUsize i < USIZE := by
  unfold asUsize USIZE
  push_cast
  omega

theorem offsetMap_get_lt (off : Int) (m : OffsetMap) (k u : Nat)
    (h : OffsetMap.get off m k = some u) : u < USIZE := by
  unfold OffsetMap.get at h
  split at h
  · injection h with h
    rw [← h]
    exact asUsize_lt _
  · cases h
  · injection h with h
    rw [← h]
    exact asUsize_lt _

theorem offsetMap_get_set_self_opt (off : Int) (m : OffsetMap) (k : Nat)
    (v : Option Nat) (hv : ∀ u, v = some u → u < USIZE) :
    OffsetMap.get off (OffsetMap.set off m k v) k = v := by
  cases v with
  | none =>
    simp only [OffsetMap.set, OffsetMap.get, mapGet_mapInsert_self]
  | some u => exact offsetMap_get_set_self off m k u (hv u rfl)

theorem offsetMap_set_keys (off : Int) (m : OffsetMap) (k : Nat) (v : Option Nat)
    (b : Nat) (hm : ∀ q ∈ m.map, q.1 < b) (hk : k < b) :
    ∀ q ∈ (OffsetMap.set off m k v).map, q.1 < b := by
  intro q hq
  cases v with
  | none =>
    rcases mem_mapInsert _ _ _ _ hq with rfl | hq'
    · exact hk
    · exact hm q hq'
  | some w =>
    by_cases hdef : offAdd off k = w
    · simp only [OffsetMap.set, if_pos hdef] at hq
      exact hm q (List.mem_of_mem_filter hq)
    · simp only [OffsetMap.set, if_neg hdef] at hq
      rcases mem_mapInsert _ _ _ _ hq with rfl | hq'
      · exact hk
      · exact hm q hq'

theorem mapGet_none_of_keys_lt {V : Type} (m : List (Nat × V)) (b k : Nat)
    (hk : ∀ p ∈ m, p.1 < b) (h : b ≤ k) : mapGet m k = none := by
  unfold mapGet
  rw [List.find?_eq_none.mpr]
  · rfl
  · intro p hp
    have := hk p hp
    simp
    omega

/-- The two next-index writes shared by `apply_change` and
`apply_local_changes`: splice after `p` towards a fresh block starting at
the old log length, with the block's last entry (`last`) taking over `p`'s
old next pointer; intermediate block entries rely on the `+1` default. -/
theorem nextUpdate_get (nI : OffsetMap) (p len last : Nat)
    (hplen : p < len) (hlast : len ≤ last)
    (hkeys : ∀ q ∈ nI.map, q.1 < len) (husize : last + 1 < USIZE) :
    (∀ x, x < len → x ≠ p →
      OffsetMap.get 1 (OffsetMap.set 1 (OffsetMap.set 1 nI p (some len)) last
        (OffsetMap.get 1 nI p)) x = OffsetMap.get 1 nI x) ∧
    OffsetMap.get 1 (OffsetMap.set 1 (OffsetMap.set 1 nI p (some len)) last
      (OffsetMap.get 1 nI p)) p = some len ∧
    (∀ j, len ≤ j → j < last →
      OffsetMap.get 1 (OffsetMap.set 1 (OffsetMap.set 1 nI p (some len)) last
        (OffsetMap.get 1 nI p)) j = some (j + 1)) ∧
    OffsetMap.get 1 (OffsetMap.set 1 (OffsetMap.set 1 nI p (some len)) last
      (OffsetMap.get 1 nI p)) last = OffsetMap.get 1 nI p := by
  refine ⟨?_, ?_, ?_, ?_⟩
  · intro x hx hxp
    rw [offsetMap_get_set_ne _ _ _ _ _ (by omega), offsetMap_get_set_ne _ _ _ _ _ hxp]
  · rw [offsetMap_get_set_ne _ _ _ _ _ (by omega)]
    exact offsetMap_get_set_self _ _ _ _ (by omega)
  · intro j hj1 hj2
    rw [offsetMap_get_set_ne _ _ _ _ _ (by omega),
      offsetMap_get_set_ne _ _ _ _ _ (by omega)]
    unfold OffsetMap.get
    rw [mapGet_none_of_keys_lt _ len j hkeys hj1]
    rw [offAdd_one (by omega)]
  · exact offsetMap_get_set_self_opt _ _ _ _
      (fun u hu => offsetMap_get_lt _ _ _ _ hu)

/-- The chain invariant for states reachable without extra `Root` entries:
the primary root is 0, the next-pointer chain from it visits exactly the
log's indices, the next stream stores no key at or past the log length, the
only `Root` entry is index 0, and index 0 has no reference. -/
structure WFchain {T : Type} (cf : Cfold T) : Prop where
  root0 : cf.root = 0
  len_pos : 0 < cf.log.length
  len_usize : cf.log.length < USIZE
  next_keys : ∀ q ∈ cf.nextIndices.map, q.1 < cf.log.length
  root_unique : ∀ ℓ, ℓ < cf.log.length → cf.log.get? ℓ = some Change.root → ℓ = 0
  ref0 : Cfold.getReference cf 0 = none
  chain : ∃ C, PathFrom (Cfold.getNextIndex cf) (some 0) C none ∧
    C.Perm (List.range cf.log.length)

/-- States reachable without `Root` ops (the session path never produces
`Root` changes through `apply_local_changes` either).  The two numeric side
conditions record that a log never outgrows the `usize` index space. -/
inductive ReachNR (T : Type) : Cfold T → Prop where
  | base (a : Nat) : ReachNR T (Cfold.newCf T a)
  | applyStep {cf cf' : Cfold T} (op : Op T) :
      ReachNR T cf → Cfold.apply cf op = ApplyResult.ok cf' →
      op.payload ≠ OpPayload.root → cf.log.length + 1 < USIZE → ReachNR T cf'
  | localStep {cf : Cfold T} (a r : Nat) (changes : List (Change T)) :
      ReachNR T cf → r < cf.log.length →
      (∀ c ∈ changes, c ≠ Change.root) →
      cf.log.length + changes.length + 1 < USIZE →
      ReachNR T (Cfold.applyLocalChanges cf a r changes).1

theorem logIndex_lt {T : Type} {cf : Cfold T} {t : Timestamp} {r : Nat}
    (h : Cfold.logIndex cf t = some r) : r < cf.log.length := by
  unfold Cfold.logIndex at h
  exact (mem_drop_range.mp (List.mem_of_find?_eq_some h)).2

/-- The exact field shape of the state produced by `apply_change` when the
predecessor search returns an index `p`: two next-pointer writes (splice
after `p`), one reference write, one appended log entry. -/
theorem applyChange_splice {T : Type} {cf cf' : Cfold T} {id : Timestamp}
    {ref : Option Nat} {ch : Change T} {n p : Nat}
    (hfp : Cfold.findPredecessor cf id ref ch = some (some p))
    (hac : Cfold.applyChange cf id ref ch = some (cf', n)) :
    cf'.nextIndices =
      OffsetMap.set 1 (OffsetMap.set 1 cf.nextIndices p (some cf.log.length))
        cf.log.length (OffsetMap.get 1 cf.nextIndices p) ∧
    cf'.references = OffsetMap.set (-1) cf.references cf.log.length ref ∧
    cf'.log = cf.log ++ [ch] ∧ cf'.root = cf.root := by
  unfold Cfold.applyChange at hac
  rw [hfp, Option.map_some'] at hac
  injection hac with hac
  injection hac with h1 h2
  subst h1
  exact ⟨rfl, rfl, rfl, rfl⟩

/-- The exact field shape of the state produced by a non-empty
`apply_local_changes` batch: splice after `p = find_last_delete(r) or r`,
with the block's last entry receiving `p`'s old next pointer. -/
theorem applyLocal_splice {T : Type} (cf : Cfold T) (a r p : Nat)
    (first : Change T) (rest : List (Change T))
    (hp : (Cfold.findLastDelete cf r).getD r = p) :
    (Cfold.applyLocalChanges cf a r (first :: rest)).1.nextIndices =
      OffsetMap.set 1 (OffsetMap.set 1 cf.nextIndices p (some cf.log.length))
        (cf.log.length + rest.length) (OffsetMap.get 1 cf.nextIndices p) ∧
    (Cfold.applyLocalChanges cf a r (first :: rest)).1.references =
      OffsetMap.set (-1) cf.references cf.log.length (some p) ∧
    (Cfold.applyLocalChanges cf a r (first :: rest)).1.log =
      cf.log ++ first :: rest ∧
    (Cfold.applyLocalChanges cf a r (first :: rest)).1.root = cf.root := by
  subst hp
  refine ⟨rfl, rfl, ?_, rfl⟩
  show (cf.log ++ [first]) ++ rest = cf.log ++ first :: rest
  simp

/-- `apply` on an op that is not a `Root`: on `Ok` it went through
`apply_change` with a resolved in-bounds reference and a non-root change. -/
theorem apply_ok_elim_nonroot {T : Type} {cf cf' : Cfold T} {op : Op T}
    (h : Cfold.apply cf op = ApplyResult.ok cf')
    (hnr : op.payload ≠ OpPayload.root) :
    ∃ r ch n, r < cf.log.length ∧ ch ≠ Change.root ∧
      Cfold.applyChange cf op.id (some r) ch = some (cf', n) := by
  by_cases hex : (Cfold.logIndex cf op.id).isSome
  · rw [show Cfold.apply cf op =
      ApplyResult.error (ChronofoldError.existingTimestamp op) from by
        simp [Cfold.apply, hex]] at h
    cases h
  · by_cases hfu : cf.log.length < op.id.idx
    · rw [show Cfold.apply cf op =
        ApplyResult.error (ChronofoldError.futureTimestamp op) from by
          simp [Cfold.apply, hex, hfu]] at h
      cases h
    · obtain ⟨id, payload⟩ := op
      cases payload with
      | root => exact absurd rfl hnr
      | insert r v =>
        cases r with
        | none =>
          simp only [Cfold.apply, hex, Bool.false_eq_true, if_false, if_neg hfu] at h
          have : Cfold.applyChange cf id none (Change.insert v) = none := by
            unfold Cfold.applyChange Cfold.findPredecessor
            rfl
          rw [this] at h
          cases h
        | some t =>
          simp only [Cfold.apply, hex, Bool.false_eq_true, if_false, if_neg hfu] at h
          rcases href : Cfold.logIndex cf t with _ | ref
          · rw [href] at h
            cases h
          · rw [href] at h
            have h2 : liftAC (Cfold.applyChange cf id (some ref) (Change.insert v)) =
                ApplyResult.ok cf' := h
            rcases hac : Cfold.applyChange cf id (some ref) (Change.insert v) with _ | pr
            · rw [hac] at h2
              cases h2
            · rw [hac] at h2
              obtain ⟨c2, n⟩ := pr
              injection h2 with h2
              subst h2
              exact ⟨ref, Change.insert v, n, logIndex_lt href, (by intro hc; cases hc), hac⟩
      | delete t =>
        simp only [Cfold.apply, hex, Bool.false_eq_true, if_false, if_neg hfu] at h
        rcases href : Cfold.logIndex cf t with _ | ref
        · rw [href] at h
          cases h
        · rw [href] at h
          have h2 : liftAC (Cfold.applyChange cf id (some ref) (Change.delete (T := T))) =
              ApplyResult.ok cf' := h
          rcases hac : Cfold.applyChange cf id (some ref) (Change.delete (T := T)) with _ | pr
          · rw [hac] at h2
            cases h2
          · rw [hac] at h2
            obtain ⟨c2, n⟩ := pr
            injection h2 with h2
            subst h2
            exact ⟨ref, Change.delete, n, logIndex_lt href, (by intro hc; cases hc), hac⟩

theorem chain_split {g : Nat → Option Nat} {C : List Nat} {c0 : Option Nat} {q : Nat}
    (hC : PathFrom g c0 C none) (hq : q ∈ C) :
    ∃ A B, C = A ++ q :: B ∧ PathFrom g (some q) (q :: B) none := by
  obtain ⟨A, B, rfl⟩ := List.append_of_mem hq
  obtain ⟨d, hA, hB⟩ := (pathFrom_append g A (q :: B) c0 none).mp hC
  obtain ⟨hd, ht⟩ := hB
  refine ⟨A, B, rfl, ?_⟩
  show some q = some q ∧ PathFrom g (g q) B none
  exact ⟨rfl, ht⟩

/-- `iter_log_indices_causal_range(q..)` on a non-`Root` start is exactly
`q` followed by the next-pointer walk recorded in the global chain. -/
theorem causal_eq_nonroot {T : Type} {cf : Cfold T} {q : Nat} {B : List Nat}
    (hnr : cf.log.get? q ≠ some Change.root)
    (hpath : PathFrom (Cfold.getNextIndex cf) (some q) (q :: B) none)
    (hlen : B.length < cf.log.length) :
    Cfold.causalFromIncluded cf q = q :: B := by
  show Cfold.chainF (Cfold.getNextIndex cf)
    (cf.log.length + 1)
    (match cf.log.get? q with
      | some Change.root => Cfold.getNextIndex cf q
      | _ => some q) = q :: B
  have hcur : (match cf.log.get? q with
      | some Change.root => Cfold.getNextIndex cf q
      | _ => some q) = some q := by
    rcases hq : cf.log.get? q with _ | ch
    · rfl
    · cases ch with
      | root => exact absurd hq hnr
      | insert v => rfl
      | delete => rfl
  rw [hcur]
  exact chainF_eq_of_pathFrom hpath (cf.log.length + 1) (by simp; omega)

/-- On a `Root` start the walk skips the start itself. -/
theorem causal_eq_root {T : Type} {cf : Cfold T} {q : Nat} {B : List Nat}
    (hr : cf.log.get? q = some Change.root)
    (hpath : PathFrom (Cfold.getNextIndex cf) (some q) (q :: B) none)
    (hlen : B.length < cf.log.length) :
    Cfold.causalFromIncluded cf q = B := by
  obtain ⟨hc, ht⟩ := hpath
  show Cfold.chainF (Cfold.getNextIndex cf)
    (cf.log.length + 1)
    (match cf.log.get? q with
      | some Change.root => Cfold.getNextIndex cf q
      | _ => some q) = B
  rw [hr]
  exact chainF_eq_of_pathFrom ht (cf.log.length + 1) (by omega)

/-- Everything `iter_log_indices_causal_range(q..)` visits, for `q` on the
chain, stays on the chain. -/
theorem causal_subset_chain {T : Type} {cf : Cfold T} {C : List Nat} {q : Nat}
    (hC : PathFrom (Cfold.getNextIndex cf) (some 0) C none)
    (hlen : C.length ≤ cf.log.length) (hq : q ∈ C) :
    ∀ x ∈ Cfold.causalFromIncluded cf q, x ∈ C := by
  obtain ⟨A, B, rfl, hp⟩ := chain_split hC hq
  have hBlen : B.length < cf.log.length := by
    simp at hlen
    omega
  by_cases hroot : cf.log.get? q = some Change.root
  · rw [causal_eq_root hroot hp hBlen]
    intro x hx
    exact List.mem_append_right A (List.mem_cons_of_mem q hx)
  · rw [causal_eq_nonroot hroot hp hBlen]
    intro x hx
    exact List.mem_append_right A hx

theorem foldl_mem {α : Type} (step : List α → α → List α)
    (hstep : ∀ acc i x, x ∈ step acc i → x ∈ acc ∨ x = i) :
    ∀ (l : List α) (acc : List α) (x : α), x ∈ l.foldl step acc → x ∈ acc ∨ x ∈ l := by
  intro l
  induction l with
  | nil => exact fun acc x hx => Or.inl hx
  | cons i rest ih =>
    intro acc x hx
    rcases ih (step acc i) x hx with h | h
    · rcases hstep acc i x h with h2 | h2
      · exact Or.inl h2
      · exact Or.inr (by simp [h2])
    · exact Or.inr (List.mem_cons_of_mem _ h)

theorem foldl_ne_nil {α : Type} (step : List α → α → List α)
    (hstep : ∀ acc i, acc ≠ [] → step acc i ≠ []) :
    ∀ (l : List α) (acc : List α), acc ≠ [] → l.foldl step acc ≠ [] := by
  intro l
  induction l with
  | nil => exact fun acc h => h
  | cons i rest ih => exact fun acc h => ih (step acc i) (hstep acc i h)

theorem iterSubtree_subset {T : Type} (cf : Cfold T) (q x : Nat)
    (hx : x ∈ Cfold.iterSubtree cf q) : x ∈ Cfold.causalFromIncluded cf q := by
  unfold Cfold.iterSubtree at hx
  have hstep : ∀ (acc : List Nat) (i x : Nat),
      x ∈ (fun acc idx =>
        if idx = q then acc ++ [idx]
        else
          match Cfold.getReference cf idx with
          | some p => if p ∈ acc then acc ++ [idx] else acc
          | none => acc) acc i → x ∈ acc ∨ x = i := by
    intro acc i x hxm
    dsimp only at hxm
    split at hxm
    · rcases List.mem_append.mp hxm with h | h
      · exact Or.inl h
      · exact Or.inr (by simpa using h)
    · split at hxm
      · split at hxm
        · rcases List.mem_append.mp hxm with h | h
          · exact Or.inl h
          · exact Or.inr (by simpa using h)
        · exact Or.inl hxm
      · exact Or.inl hxm
  rcases foldl_mem _ hstep _ _ _ hx with h | h
  · cases h
  · exact h

theorem exists_getLast?_of_ne_nil {α : Type} (l : List α) (h : l ≠ []) :
    ∃ p, l.getLast? = some p :=
  ⟨l.getLast h, List.getLast?_eq_getLast l h⟩

/-- `iter_subtree(q)` starts by emitting `q` itself, so it is non-empty and
has a last element. -/
theorem iterSubtree_getLast {T : Type} (cf : Cfold T) (q : Nat) (tl : List Nat)
    (hc : Cfold.causalFromIncluded cf q = q :: tl) :
    ∃ p, (Cfold.iterSubtree cf q).getLast? = some p := by
  unfold Cfold.iterSubtree
  rw [hc]
  apply exists_getLast?_of_ne_nil
  show List.foldl _ ((fun acc idx =>
      if idx = q then acc ++ [idx]
      else
        match Cfold.getReference cf idx with
        | some p => if p ∈ acc then acc ++ [idx] else acc
        | none => acc) [] q) tl ≠ []
  have h0 : (fun (acc : List Nat) (idx : Nat) =>
      if idx = q then acc ++ [idx]
      else
        match Cfold.getReference cf idx with
        | some p => if p ∈ acc then acc ++ [idx] else acc
        | none => acc) [] q = [q] := by
    simp
  rw [h0]
  refine foldl_ne_nil _ ?_ tl [q] (by simp)
  intro acc i h
  dsimp only
  split
  · simp [h]
  · split
    · split
      · simp [h]
      · exact h
    · exact h

theorem range_add_eq (a b : Nat) :
    List.range (a + b) = List.range a ++ List.range' a b := by
  rw [List.range_eq_range', List.range_eq_range']
  have h := List.range'_append 0 a b 1
  simp at h
  rw [Nat.add_comm a b]
  exact h.symm

/-- The common splice shape shared by `apply_change` and
`apply_local_changes` preserves the chain invariant: a block of `L.length`
fresh indices is linked in right after an existing chain member `p`, with
the block's last index inheriting `p`'s old next pointer. -/
theorem WFchain_splice {T : Type} {cf cf' : Cfold T} (hw : WFchain cf) {p : Nat}
    (hp : p < cf.log.length) (L : List (Change T)) (ref' : Option Nat)
    (hL : cf'.log = cf.log ++ L) (hLnil : L ≠ [])
    (hLnr : ∀ c ∈ L, c ≠ Change.root)
    (hnext : cf'.nextIndices =
      OffsetMap.set 1 (OffsetMap.set 1 cf.nextIndices p (some cf.log.length))
        (cf.log.length + (L.length - 1)) (OffsetMap.get 1 cf.nextIndices p))
    (href : cf'.references = OffsetMap.set (-1) cf.references cf.log.length ref')
    (hroot : cf'.root = cf.root)
    (husize : cf.log.length + L.length < USIZE) :
    WFchain cf' := by
  obtain ⟨C, hC, hperm⟩ := hw.chain
  have hm : 0 < L.length := List.length_pos.mpr hLnil
  have hlen' : cf'.log.length = cf.log.length + L.length := by
    rw [hL]
    simp
  have memC : ∀ x, x ∈ C ↔ x < cf.log.length := by
    intro x
    rw [hperm.mem_iff, List.mem_range]
  have hCnd : C.Nodup := (List.Perm.nodup_iff hperm).mpr (List.nodup_range _)
  obtain ⟨hkeep, hgp, hblock, hlast2⟩ :=
    nextUpdate_get cf.nextIndices p cf.log.length
      (cf.log.length + (L.length - 1)) hp (by omega) hw.next_keys (by omega)
  have hg'keep : ∀ x, x < cf.log.length → x ≠ p →
      Cfold.getNextIndex cf' x = Cfold.getNextIndex cf x := by
    intro x hx hxp
    unfold Cfold.getNextIndex
    rw [hnext]
    exact hkeep x hx hxp
  have hg'p : Cfold.getNextIndex cf' p = some cf.log.length := by
    unfold Cfold.getNextIndex
    rw [hnext]
    exact hgp
  have hg'block : ∀ j, cf.log.length ≤ j → j < cf.log.length + (L.length - 1) →
      Cfold.getNextIndex cf' j = some (j + 1) := by
    intro j h1 h2
    unfold Cfold.getNextIndex
    rw [hnext]
    exact hblock j h1 h2
  have hg'last : Cfold.getNextIndex cf' (cf.log.length + (L.length - 1)) =
      Cfold.getNextIndex cf p := by
    unfold Cfold.getNextIndex
    rw [hnext]
    exact hlast2
  have hpC : p ∈ C := (memC p).mpr hp
  obtain ⟨A, B, rfl, hpB⟩ := chain_split hC hpC
  obtain ⟨-, hB⟩ := hpB
  have hnodAB := hCnd
  rw [List.nodup_append] at hnodAB
  have hpnotB : p ∉ B := by
    have h1 := hnodAB.2.1
    rw [List.nodup_cons] at h1
    exact h1.1
  have hAfacts : ∀ x ∈ A, x < cf.log.length ∧ x ≠ p := by
    intro x hx
    refine ⟨(memC x).mp (List.mem_append_left _ hx), ?_⟩
    intro hc
    subst hc
    exact hnodAB.2.2 hx (by simp)
  have hBfacts : ∀ x ∈ B, x < cf.log.length ∧ x ≠ p := by
    intro x hx
    refine ⟨(memC x).mp (List.mem_append_right _ (List.mem_cons_of_mem _ hx)), ?_⟩
    intro hc
    subst hc
    exact hpnotB hx
  obtain ⟨d, hA, hd⟩ := (pathFrom_append _ A (p :: B) _ none).mp hC
  obtain ⟨hdp, -⟩ := hd
  rw [hdp] at hA
  have hA' : PathFrom (Cfold.getNextIndex cf') (some 0) A (some p) :=
    pathFrom_congr hA (fun x hx => hg'keep x (hAfacts x hx).1 (hAfacts x hx).2)
  have hB' : PathFrom (Cfold.getNextIndex cf') (Cfold.getNextIndex cf p) B none :=
    pathFrom_congr hB (fun x hx => hg'keep x (hBfacts x hx).1 (hBfacts x hx).2)
  have hblockPath : PathFrom (Cfold.getNextIndex cf') (some cf.log.length)
      (List.range' cf.log.length L.length) (Cfold.getNextIndex cf p) := by
    apply pathFrom_range' _ L.length cf.log.length _ hm
    · intro j h1 h2
      exact hg'block j h1 (by omega)
    · have he : cf.log.length + L.length - 1 = cf.log.length + (L.length - 1) := by
        omega
      rw [he]
      exact hg'last
  have htail : PathFrom (Cfold.getNextIndex cf') (some p)
      (p :: (List.range' cf.log.length L.length ++ B)) none := by
    show some p = some p ∧ PathFrom (Cfold.getNextIndex cf')
      (Cfold.getNextIndex cf' p) (List.range' cf.log.length L.length ++ B) none
    refine ⟨rfl, ?_⟩
    rw [hg'p]
    exact (pathFrom_append _ _ _ _ _).mpr ⟨Cfold.getNextIndex cf p, hblockPath, hB'⟩
  have hpath' : PathFrom (Cfold.getNextIndex cf') (some 0)
      (A ++ p :: (List.range' cf.log.length L.length ++ B)) none :=
    (pathFrom_append _ _ _ _ _).mpr ⟨some p, hA', htail⟩
  have hperm' : (A ++ p :: (List.range' cf.log.length L.length ++ B)).Perm
      (List.range (cf.log.length + L.length)) := by
    have step1 : (A ++ p :: (List.range' cf.log.length L.length ++ B)).Perm
        (A ++ p :: (B ++ List.range' cf.log.length L.length)) :=
      List.Perm.append_left A (List.Perm.cons p (List.perm_append_comm))
    have e : A ++ p :: (B ++ List.range' cf.log.length L.length) =
        (A ++ p :: B) ++ List.range' cf.log.length L.length := by
      simp
    have step3 : ((A ++ p :: B) ++ List.range' cf.log.length L.length).Perm
        (List.range cf.log.length ++ List.range' cf.log.length L.length) :=
      hperm.append_right _
    rw [← range_add_eq] at step3
    exact step1.trans (e ▸ step3)
  constructor
  · rw [hroot]
    exact hw.root0
  · have := hw.len_pos
    omega
  · omega
  · rw [hnext, hlen']
    apply offsetMap_set_keys _ _ _ _ _ _ (by omega)
    apply offsetMap_set_keys _ _ _ _ _ _ (by omega)
    intro q hq
    have := hw.next_keys q hq
    omega
  · intro ℓ hℓ hgr
    rw [hlen'] at hℓ
    rw [hL] at hgr
    rcases Nat.lt_or_ge ℓ cf.log.length with hc | hc
    · rw [List.get?_append hc] at hgr
      exact hw.root_unique ℓ hc hgr
    · exfalso
      rw [List.get?_append_right hc] at hgr
      exact hLnr _ (List.get?_mem hgr) rfl
  · show OffsetMap.get (-1) cf'.references 0 = none
    rw [href, offsetMap_get_set_ne _ _ _ _ _ (by have := hw.len_pos; omega)]
    exact hw.ref0
  · rw [hlen']
    exact ⟨_, hpath', hperm'⟩

/-- On a chain-well-formed state, `find_predecessor` for a non-root change
with an in-bounds reference returns an in-bounds predecessor (never the
`unreachable!` arms, never an empty-subtree `None`). -/
theorem findPredecessor_mem {T : Type} {cf : Cfold T} (hw : WFchain cf)
    {id : Timestamp} {r : Nat} {ch : Change T}
    (hr : r < cf.log.length) (hnr : ch ≠ Change.root) :
    ∃ p, Cfold.findPredecessor cf id (some r) ch = some (some p) ∧
      p < cf.log.length := by
  obtain ⟨C, hC, hperm⟩ := hw.chain
  have memC : ∀ x, x ∈ C ↔ x < cf.log.length := by
    intro x
    rw [hperm.mem_iff, List.mem_range]
  have hClen : C.length = cf.log.length :=
    hperm.length_eq.trans (List.length_range _)
  cases ch with
  | root => exact absurd rfl hnr
  | delete => exact ⟨r, rfl, hr⟩
  | insert v =>
    have hred : Cfold.findPredecessor cf id (some r) (Change.insert v) =
        some (match ((Cfold.causalFromIncluded cf r).filter (fun i =>
            Cfold.getReference cf i = some r &&
              (Cfold.isDeleteAt cf i || Cfold.tsGtAt cf i id))).getLast? with
          | some idx => (Cfold.iterSubtree cf idx).getLast?
          | none => some r) := rfl
    rcases hfl : ((Cfold.causalFromIncluded cf r).filter (fun i =>
        Cfold.getReference cf i = some r &&
          (Cfold.isDeleteAt cf i || Cfold.tsGtAt cf i id))).getLast? with _ | idx
    · refine ⟨r, ?_, hr⟩
      rw [hred, hfl]
    · have hmem := mem_of_getLast?_eq hfl
      rw [List.mem_filter] at hmem
      obtain ⟨hin, hpred⟩ := hmem
      simp only [Bool.and_eq_true, decide_eq_true_eq] at hpred
      have hidxC : idx ∈ C :=
        causal_subset_chain hC (le_of_eq hClen) ((memC r).mpr hr) idx hin
      have hidxlt : idx < cf.log.length := (memC idx).mp hidxC
      have hnonroot : cf.log.get? idx ≠ some Change.root := by
        intro hc
        have h0 : idx = 0 := hw.root_unique idx hidxlt hc
        rw [h0] at hpred
        rw [hw.ref0] at hpred
        cases hpred.1
      obtain ⟨A, B, hCeq, hpB⟩ := chain_split hC hidxC
      have hBlen : B.length < cf.log.length := by
        rw [hCeq] at hClen
        simp at hClen
        omega
      have hshape : Cfold.causalFromIncluded cf idx = idx :: B :=
        causal_eq_nonroot hnonroot hpB hBlen
      obtain ⟨q, hq⟩ := iterSubtree_getLast cf idx B hshape
      have hqC : q ∈ C := by
        apply causal_subset_chain hC (le_of_eq hClen) hidxC
        exact iterSubtree_subset cf idx q (mem_of_getLast?_eq hq)
      refine ⟨q, ?_, (memC q).mp hqC⟩
      rw [hred, hfl]
      show some ((Cfold.iterSubtree cf idx).getLast?) = some (some q)
      rw [hq]

/-- Every state reachable by non-root operations satisfies the chain
invariant. -/
theorem WFchain_reachNR {T : Type} {cf : Cfold T} (h : ReachNR T cf) :
    WFchain cf := by
  induction h with
  | base a =>
    constructor
    · rfl
    · show 0 < 1
      decide
    · show 1 < USIZE
      unfold USIZE
      norm_num
    · intro q hq
      have hm : (Cfold.newCf T a).nextIndices.map = [(0, (none : Option Int))] := rfl
      rw [hm] at hq
      simp at hq
      rw [hq]
      show 0 < 1
      decide
    · intro ℓ hℓ hroot
      have h1 : (Cfold.newCf T a).log.length = 1 := rfl
      rw [h1] at hℓ
      omega
    · rfl
    · refine ⟨[0], ⟨rfl, ?_⟩, ?_⟩
      · show (none : Option Nat) = Cfold.getNextIndex (Cfold.newCf T a) 0
        rfl
      · have h1 : List.range (Cfold.newCf T a).log.length = [0] := rfl
        rw [h1]
  | @applyStep cf0 cf1 op hre hok hnr husize ih =>
    obtain ⟨r, ch, n, hr, hchnr, hac⟩ := apply_ok_elim_nonroot hok hnr
    obtain ⟨p, hfp, hplt⟩ := findPredecessor_mem ih hr hchnr
    obtain ⟨hnext, href, hlog, hroot⟩ := applyChange_splice hfp hac
    refine WFchain_splice ih hplt [ch] (some r) hlog (by simp) ?_ ?_ href hroot ?_
    · intro c hc
      rw [List.mem_singleton] at hc
      subst hc
      exact hchnr
    · simpa using hnext
    · simpa using husize
  | @localStep cf0 a r changes hre hrlt hcnr husize ih =>
    cases changes with
    | nil => exact ih
    | cons first rest =>
      obtain ⟨hnext, href, hlog, hroot⟩ :=
        applyLocal_splice cf0 a r ((Cfold.findLastDelete cf0 r).getD r) first rest rfl
      have hplt : (Cfold.findLastDelete cf0 r).getD r < cf0.log.length := by
        rcases hfd : Cfold.findLastDelete cf0 r with _ | d
        · simpa using hrlt
        · obtain ⟨C, hC, hperm⟩ := ih.chain
          have hClen : C.length = cf0.log.length :=
            hperm.length_eq.trans (List.length_range _)
          have hd : d ∈ Cfold.causalFromIncluded cf0 r := by
            unfold Cfold.findLastDelete at hfd
            exact List.mem_of_mem_drop (List.mem_of_mem_filter (mem_of_getLast?_eq hfd))
          have hdC := causal_subset_chain hC (le_of_eq hClen)
            (by rw [hperm.mem_iff, List.mem_range]; exact hrlt) d hd
          rw [hperm.mem_iff, List.mem_range] at hdC
          simpa using hdC
      refine WFchain_splice ih hplt (first :: rest) (some _) hlog (by simp)
        (fun c hc => hcnr c hc) ?_ href hroot ?_
      · simpa using hnext
      · simp at husize ⊢
        omega

/-- C6: after any sequence of successfully applied operations that are not
extra `Root`s (and any batches of non-`Root` local changes), following
NextIndex from the root visits every log index — deleted entries included —
exactly once (the walk is a permutation of `range log.len()`) and reaches a
terminal `None` (the walk is a complete `PathFrom … none`); the corrected
claim excludes additional `Root` ops, which start a second, disconnected
chain. -/
theorem C6_next_index_chain {T : Type} (cf : Cfold T) (h : ReachNR T cf) :
    (Cfold.chainF (Cfold.getNextIndex cf) (cf.log.length + 1) (some cf.root)).Perm
      (List.range cf.log.length) ∧
    PathFrom (Cfold.getNextIndex cf) (some cf.root)
      (Cfold.chainF (Cfold.getNextIndex cf) (cf.log.length + 1) (some cf.root))
      none := by
  have hw := WFchain_reachNR h
  obtain ⟨C, hC, hperm⟩ := hw.chain
  have hClen : C.length = cf.log.length :=
    hperm.length_eq.trans (List.length_range _)
  have he : Cfold.chainF (Cfold.getNextIndex cf) (cf.log.length + 1)
      (some cf.root) = C := by
    rw [hw.root0]
    exact chainF_eq_of_pathFrom hC _ (by omega)
  rw [he, hw.root0]
  exact ⟨hperm, hC⟩

theorem C6_next_index_chain_witness :
    (Cfold.chainF (Cfold.getNextIndex (Cfold.newCf Nat 0))
        ((Cfold.newCf Nat 0).log.length + 1) (some (Cfold.newCf Nat 0).root)).Perm
      (List.range (Cfold.newCf Nat 0).log.length) ∧
    PathFrom (Cfold.getNextIndex (Cfold.newCf Nat 0))
      (some (Cfold.newCf Nat 0).root)
      (Cfold.chainF (Cfold.getNextIndex (Cfold.newCf Nat 0))
        ((Cfold.newCf Nat 0).log.length + 1) (some (Cfold.newCf Nat 0).root))
      none :=
  C6_next_index_chain (Cfold.newCf Nat 0) (ReachNR.base 0)

/-- The state obtained by applying a second `Root` op to a fresh
chronofold; `apply` accepts it (see `C6_counterexample`). -/
def C6cex : Cfold Nat :=
  match Cfold.apply (Cfold.newCf Nat 0) ⟨⟨1, 1⟩, OpPayload.root⟩ with
  | ApplyResult.ok cf => cf
  | _ => Cfold.newCf Nat 0

/-- A second `Root` op is applied successfully but is spliced after no
predecessor: the walk from the primary root is `[0]` and misses log index
1, refuting C6 as stated for arbitrary applied operations. -/
theorem C6_counterexample :
    Cfold.apply (Cfold.newCf Nat 0) ⟨⟨1, 1⟩, OpPayload.root⟩ =
        ApplyResult.ok C6cex ∧
      C6cex.log.length = 2 ∧
      Cfold.chainF (Cfold.getNextIndex C6cex) (C6cex.log.length + 1)
        (some C6cex.root) = [0] ∧
      ¬ (Cfold.chainF (Cfold.getNextIndex C6cex) (C6cex.log.length + 1)
          (some C6cex.root)).Perm (List.range C6cex.log.length) :=
  ⟨by decide, by decide, by decide, by decide⟩

/-! ### Claim C1: convergence -/

/-- Apply a list of ops in order, requiring every single `apply` to return
`Ok` (as both replicas of the convergence claim do). -/
def applyAllOps {T : Type} (cf : Cfold T) : List (Op T) → Option (Cfold T)
  | [] => some cf
  | op :: rest =>
    match Cfold.apply cf op with
    | ApplyResult.ok cf' => applyAllOps cf' rest
    | _ => none

/-- The visible element sequence of `iter()` (dropping the log indices). -/
def visibleSeq (cf : Cfold Nat) : Option (List Nat) :=
  (Cfold.iterVisible cf).map (fun l => l.map Prod.fst)

/-- An op set on which `apply` order changes `iter()`: one insert, two
concurrent sibling deletes of it by different authors, and an insert that
references one tombstone (as `apply_local_changes` itself produces after a
deletion). -/
def C1ops : List (Op Nat) :=
  [⟨⟨1, 1⟩, OpPayload.insert (some ⟨0, 0⟩) 11⟩,
   ⟨⟨2, 2⟩, OpPayload.delete ⟨1, 1⟩⟩,
   ⟨⟨2, 3⟩, OpPayload.delete ⟨1, 1⟩⟩,
   ⟨⟨3, 1⟩, OpPayload.insert (some ⟨2, 2⟩) 99⟩]

/-- The same set with the two sibling deletes swapped: still an admissible
order (every referenced op precedes its reader, and every `apply`
returns `Ok`). -/
def C1opsSwapped : List (Op Nat) :=
  [⟨⟨1, 1⟩, OpPayload.insert (some ⟨0, 0⟩) 11⟩,
   ⟨⟨2, 3⟩, OpPayload.delete ⟨1, 1⟩⟩,
   ⟨⟨2, 2⟩, OpPayload.delete ⟨1, 1⟩⟩,
   ⟨⟨3, 1⟩, OpPayload.insert (some ⟨2, 2⟩) 99⟩]

/-- C1: refuted.  The two replicas apply the same set of ops (the lists are
permutations of each other), every referenced op is applied before its
reader and every `apply` succeeds, yet `iter()` yields `[99]` on one
replica and `[]` on the other: the insert referencing the tombstone with
id (2,2) is spliced between the two sibling tombstones in one order and
after both in the other, and the element iterator treats an insert
directly followed by a delete as deleted. -/
theorem C1_convergence_counterexample :
    C1ops.Perm C1opsSwapped ∧
      (applyAllOps (Cfold.newCf Nat 0) C1ops).map visibleSeq =
        some (some [99]) ∧
      (applyAllOps (Cfold.newCf Nat 0) C1opsSwapped).map visibleSeq =
        some (some []) :=
  ⟨by decide, by decide, by decide⟩
